import Mathlib

/-!
# Verification of the ebcommander hierarchy client

Shallow embedding of `src/ebcommander.py` (the `Size` parser, the sidecar
extraction of `EbCommandSublink`, the entry hierarchy with its in-place
filtering, duplicate removal, condition matching of `_parse_sublink`, and the
level-by-level crawl of `_get_projects` / `_get_distributions` /
`_get_versions` / `_get_files`), together with theorems settling the spec's
claims about it.

Python lists are mutable heap objects; where aliasing matters (the
`copy.copy`-based `filter`) the embedding threads an explicit store mapping
list references to their contents.  Machine-level details that no claim
touches (unicode normalisation of link text, URL resolution) are taken as
already-performed inputs.
-/

namespace Ebc

/-! ## Character classes (Python `\s`, `\d`, `\w` on the ASCII range) -/

/-- Python `\s` (ASCII range: space, tab, newline, carriage return,
vertical tab, form feed). -/
def isWsChar (c : Char) : Bool :=
  c = ' ' || c = '\t' || c = '\n' || c = '\r' || c = '\x0b' || c = '\x0c'

/-- Python `\d` (ASCII digits). -/
def isDigitChar (c : Char) : Bool :=
  '0' ≤ c && c ≤ '9'

/-- Python `\w` (ASCII range: letters, digits, underscore). -/
def isWordChar (c : Char) : Bool :=
  isDigitChar c || ('a' ≤ c && c ≤ 'z') || ('A' ≤ c && c ≤ 'Z') || c = '_'

/-- Numeric value of a run of decimal digits (most significant first). -/
def digitsToNat (ds : List Char) : Nat :=
  ds.foldl (fun n c => 10 * n + (c.toNat - '0'.toNat)) 0

/-- Exact value of the decimal literal `ip [. fp]` (Python stores
`float(group(1))`; no arithmetic is ever performed on the value, so the
embedding keeps it exact as a rational). -/
def decValue (ip fp : List Char) : ℚ :=
  mkRat (digitsToNat ip * 10 ^ fp.length + digitsToNat fp) (10 ^ fp.length)

/-! ## `SizeUnit` and `Size` (`ebcommander.py` lines 23-77) -/

inductive SizeUnit where
  | UNKNOWN
  | BYTE
  | KILO_BYTE
  | MEGA_BYTE
  | GIGA_BYTE
  | TERRA_BYTE
  deriving DecidableEq, Repr

structure Size where
  value : ℚ
  unit  : SizeUnit
  deriving DecidableEq, Repr

/-- `size.group(4)[0].upper()` compared against the five unit letters:
case-insensitive first-letter lookup of `Size.parse`'s unit table. -/
def firstCharUnit (c : Char) : Option SizeUnit :=
  if c = 'B' || c = 'b' then some .BYTE
  else if c = 'K' || c = 'k' then some .KILO_BYTE
  else if c = 'M' || c = 'm' then some .MEGA_BYTE
  else if c = 'G' || c = 'g' then some .GIGA_BYTE
  else if c = 'T' || c = 't' then some .TERRA_BYTE
  else none

/-- `re.sub('\s+', '', s.strip())` removes every whitespace character. -/
def removeWs (s : String) : List Char :=
  s.data.filter (fun c => !isWsChar c)

/-- Group 4 of `^((\d+)(\.\d+)?)(\w+)$`: the rest of the string must be a
non-empty run of word characters. -/
def wordTail (rest : List Char) : Bool :=
  !rest.isEmpty && rest.all isWordChar

/-- Backtracking over the fraction `(\.\d+)?`: `f` is the maximal digit run
after the dot, `tl` what follows it; candidate fraction lengths are tried
greedily (`j` digits, longest first), exactly as the `re` engine does. -/
def tryFracLens (ip f tl : List Char) :
    Nat → Option (List Char × List Char × List Char)
  | 0 => none
  | j + 1 =>
    if wordTail (f.drop (j + 1) ++ tl) then
      some (ip, f.take (j + 1), f.drop (j + 1) ++ tl)
    else
      tryFracLens ip f tl j

/-- Backtracking over group 2 (`\d+`): `d` is the maximal digit prefix of the
whitespace-free string, `rest` what follows it; integer-part lengths `k` are
tried greedily (longest first).  For each candidate the optional fraction is
tried (present and greedy first, then absent), then group 4 (`\w+$`). -/
def tryNum (d rest : List Char) :
    Nat → Option (List Char × List Char × List Char)
  | 0 => none
  | k + 1 =>
    let ip := d.take (k + 1)
    let after := d.drop (k + 1) ++ rest
    let attempt :=
      match after with
      | '.' :: t =>
        let f := t.takeWhile isDigitChar
        match tryFracLens ip f (t.dropWhile isDigitChar) f.length with
        | some res => some res
        | none => if wordTail after then some (ip, [], after) else none
      | _ => if wordTail after then some (ip, [], after) else none
    match attempt with
    | some res => some res
    | none => tryNum d rest k

/-- `re.match(r'^((\d+)(\.\d+)?)(\w+)$', s)` on the whitespace-free string:
returns the triple (integer digits of group 1, fraction digits of group 1
(empty when the optional group is absent), group 4). -/
def sizeMatch (cs : List Char) : Option (List Char × List Char × List Char) :=
  let d := cs.takeWhile isDigitChar
  tryNum d (cs.dropWhile isDigitChar) d.length

/-- `Size.parse` (`ebcommander.py` lines 43-77): strip and drop whitespace,
match the pattern, derive the unit from the first letter of group 4; `None`
when the pattern does not match or the letter is not one of B/K/M/G/T. -/
def sizeParse (s : String) : Option Size :=
  match sizeMatch (removeWs s) with
  | none => none
  | some (ip, fp, unitTok) =>
    match unitTok with
    | [] => none
    | u :: _ =>
      match firstCharUnit u with
      | some un => some ⟨decValue ip fp, un⟩
      | none => none

/-! ## Claim-shaped size parser (C9, spec §4.1/§8)

A second definition following the claim's words, to be compared with
`sizeParse`: a well-formed size string splits (after ignoring whitespace)
into a decimal number (`.` as the only decimal point) immediately followed
by a unit token of word characters whose first letter is one of B/K/M/G/T
case-insensitively. -/

/-- All ways to split a string into a front and a back part. -/
def splitsOf (cs : List Char) : List (List Char × List Char) :=
  (List.range (cs.length + 1)).map (fun k => (cs.take k, cs.drop k))

/-- A decimal number: a non-empty digit run, optionally followed by `.` and
another non-empty digit run. -/
def decNumber (n : List Char) : Bool :=
  let ip := n.takeWhile isDigitChar
  !ip.isEmpty &&
    (match n.dropWhile isDigitChar with
     | [] => true
     | '.' :: t => !t.isEmpty && t.all isDigitChar
     | _ => false)

/-- The value denoted by a decimal number (exact). -/
def decNumberVal (n : List Char) : ℚ :=
  match n.dropWhile isDigitChar with
  | '.' :: t => decValue (n.takeWhile isDigitChar) t
  | _ => decValue (n.takeWhile isDigitChar) []

/-- One candidate decomposition, parsed the claim's way: a decimal number
immediately followed by a non-empty unit token of word characters whose
first letter is a known unit letter. -/
def claimSplitParse (p : List Char × List Char) : Option Size :=
  match p.2 with
  | [] => none
  | u :: rest =>
    if decNumber p.1 && (u :: rest).all isWordChar then
      match firstCharUnit u with
      | some un => some ⟨decNumberVal p.1, un⟩
      | none => none
    else none

/-- The claim's parser: find a decomposition into decimal number plus unit
token with a known first letter, and return the denoted value and unit. -/
def claimSizeParse (s : String) : Option Size :=
  (splitsOf (removeWs s)).findSome? claimSplitParse

/-! ## A small regex language for the crawl's condition patterns

The condition sets of `_get_projects` … `_get_files` use only the patterns
`\d+`, `DISTR`, `VERSION`, `GET`, and `EbCommand.filter` defaults to
`\.*`; these are hand-translated into token lists. -/

inductive RTok where
  | lit (c : Char)
  | digit
  | wsc
  deriving DecidableEq, Repr

def tokMatches : RTok → Char → Bool
  | .lit c, x => x = c
  | .digit, x => isDigitChar x
  | .wsc, x => isWsChar x

inductive RAtom where
  | one (t : RTok)
  | star (t : RTok)
  | plus (t : RTok)
  deriving DecidableEq, Repr

/-- `X*` followed by a continuation: `next` is tried at the current suffix
and after consuming each further `X`-matching character.  (The boolean
result of a regex match does not depend on greediness.) -/
def rmatchStar (t : RTok) (next : List Char → Bool) : List Char → Bool
  | [] => next []
  | c :: cs' => next (c :: cs') || (tokMatches t c && rmatchStar t next cs')

/-- `re.match(pattern, s)` truthiness: does the pattern match some prefix of
the string (anchored at the start, not at the end)? -/
def rmatch : List RAtom → List Char → Bool
  | [], _ => true
  | .one _ :: _, [] => false
  | .one t :: ps', c :: cs' => tokMatches t c && rmatch ps' cs'
  | .star t :: ps', cs => rmatchStar t (rmatch ps') cs
  | .plus _ :: _, [] => false
  | .plus t :: ps', c :: cs' => tokMatches t c && rmatchStar t (rmatch ps') cs'

/-- `re.fullmatch` semantics (spec-side only): the pattern must consume the
whole string. -/
def rmatchFull : List RAtom → List Char → Bool
  | [], [] => true
  | [], _ :: _ => false
  | .one _ :: _, [] => false
  | .one t :: ps', c :: cs' => tokMatches t c && rmatchFull ps' cs'
  | .star t :: ps', cs => rmatchStar t (rmatchFull ps') cs
  | .plus _ :: _, [] => false
  | .plus t :: ps', c :: cs' => tokMatches t c && rmatchStar t (rmatchFull ps') cs'

/-- A literal pattern (no metacharacters). -/
def litPat (s : String) : List RAtom :=
  s.data.map (fun c => .one (.lit c))

/-- `EbCommand._PATTERN_ID = r'\d+'`. -/
def patId : List RAtom := [.plus .digit]

/-- `PATTERN_ANY_CHAR = r'\.*'` (zero or more literal dots; under
`re.match`'s prefix semantics it matches every string). -/
def patAnyChar : List RAtom := [.star (.lit '.')]

/-! ## Timestamp extraction and `datetime` (`EbCommandSublink`, lines 110-136) -/

/-- `\d{n}`: exactly `n` digits. -/
def takeDigits : Nat → List Char → Option (List Char × List Char)
  | 0, cs => some ([], cs)
  | _ + 1, [] => none
  | n + 1, c :: cs =>
    if isDigitChar c then
      match takeDigits n cs with
      | some (ds, rest) => some (c :: ds, rest)
      | none => none
    else none

/-- A single mandatory literal character of the pattern. -/
def expectChar (c : Char) : List Char → Option (List Char)
  | x :: cs => if x = c then some cs else none
  | [] => none

/-- `\s+` (greedy; the token that follows it in the timestamp pattern is a
digit, never whitespace, so maximal munch is exact). -/
def takeWs1 (cs : List Char) : Option (List Char) :=
  match cs with
  | c :: cs' => if isWsChar c then some (cs'.dropWhile isWsChar) else none
  | [] => none

/-- `re.match(r'(\d{4})-(\d{2})-(\d{2})\s+(\d{2}):(\d{2}):(\d{2})', text)`:
the six captured groups as numbers (prefix match: trailing text is fine). -/
def matchUploadTime (cs : List Char) :
    Option (Nat × Nat × Nat × Nat × Nat × Nat) := do
  let (y, r) ← takeDigits 4 cs
  let r ← expectChar '-' r
  let (mo, r) ← takeDigits 2 r
  let r ← expectChar '-' r
  let (d, r) ← takeDigits 2 r
  let r ← takeWs1 r
  let (h, r) ← takeDigits 2 r
  let r ← expectChar ':' r
  let (mi, r) ← takeDigits 2 r
  let r ← expectChar ':' r
  let (sec, _) ← takeDigits 2 r
  pure (digitsToNat y, digitsToNat mo, digitsToNat d,
        digitsToNat h, digitsToNat mi, digitsToNat sec)

structure PyDatetime where
  year   : Nat
  month  : Nat
  day    : Nat
  hour   : Nat
  minute : Nat
  second : Nat
  deriving DecidableEq, Repr

def isLeapYear (y : Nat) : Bool :=
  (y % 4 = 0 && y % 100 ≠ 0) || y % 400 = 0

def daysInMonth (y m : Nat) : Nat :=
  if m = 2 then (if isLeapYear y then 29 else 28)
  else if m = 4 || m = 6 || m = 9 || m = 11 then 30
  else 31

/-- `datetime(y, mo, d, h, mi, s)`: validates its fields and raises
`ValueError` (modelled as `none`) when they are out of range. -/
def mkDatetime (y mo d h mi s : Nat) : Option PyDatetime :=
  if 1 ≤ y && y ≤ 9999 && 1 ≤ mo && mo ≤ 12 && 1 ≤ d && d ≤ daysInMonth y mo
      && h ≤ 23 && mi ≤ 59 && s ≤ 59 then
    some ⟨y, mo, d, h, mi, s⟩
  else none

/-- Python exceptions reachable from the embedded code. -/
inductive PyErr where
  | attributeError
  | valueError
  | keyError
  deriving DecidableEq, Repr

instance {ε α : Type} [DecidableEq ε] [DecidableEq α] :
    DecidableEq (Except ε α) := fun a b =>
  match a, b with
  | .ok x, .ok y =>
    if h : x = y then isTrue (by rw [h])
    else isFalse (fun hc => by cases hc; exact h rfl)
  | .error x, .error y =>
    if h : x = y then isTrue (by rw [h])
    else isFalse (fun hc => by cases hc; exact h rfl)
  | .ok _, .error _ => isFalse (fun hc => by cases hc)
  | .error _, .ok _ => isFalse (fun hc => by cases hc)

/-- `str.strip()`. -/
def pyStrip (s : String) : List Char :=
  ((s.data.dropWhile isWsChar).reverse.dropWhile isWsChar).reverse

/-- The sibling-cell loop of `EbCommandSublink.__init__` (lines 120-136):
for every `<td>` of the enclosing row, the stripped cell text is tried
against the timestamp pattern, and otherwise against `Size.parse`; a
timestamp match assigns `upload_time` and a successful size parse assigns
`size`, in both cases overwriting any earlier assignment.  `none` in the
result means the attribute was never assigned — it does not exist on the
Python object.  A timestamp whose fields `datetime` rejects raises
`ValueError`.  `cells = none` models an anchor without an enclosing `<tr>`
(the whole loop is skipped). -/
def sidecarStep (acc : Option PyDatetime × Option Size) (cell : String) :
    Except PyErr (Option PyDatetime × Option Size) :=
  match matchUploadTime (pyStrip cell) with
  | some (y, mo, d, h, mi, s) =>
    match mkDatetime y mo d h mi s with
    | some dt => .ok (some dt, acc.2)
    | none => .error .valueError
  | none =>
    match sizeParse (String.mk (pyStrip cell)) with
    | some sz => .ok (acc.1, some sz)
    | none => .ok acc

def sidecarScan (cells : Option (List String)) :
    Except PyErr (Option PyDatetime × Option Size) :=
  match cells with
  | none => .ok (none, none)
  | some cl => cl.foldlM sidecarStep (none, none)

/-! ## Sublinks and condition matching (`_parse_sublink`, lines 663-686) -/

/-- An `<a>` tag after the BeautifulSoup/urllib processing of `Sublink`'s
constructor: the href's path, its decoded query parameters (first value
wins, as `parse_qs(...)[0]` does), the normalised link text, and the texts
of the `<td>` cells of the enclosing table row (`none` when the anchor has
no enclosing row). -/
structure Anchor where
  path   : String
  params : List (String × String)
  desc   : String
  cells  : Option (List String)
  deriving DecidableEq, Repr

structure Sublink where
  path       : String
  params     : List (String × String)
  desc       : String
  uploadTime : Option PyDatetime
  size       : Option Size
  deriving DecidableEq, Repr

/-- `EbCommandSublink(url_base, tag)`: constructing the sublink runs the
sidecar scan (which can raise). -/
def mkSublink (a : Anchor) : Except PyErr Sublink :=
  (sidecarScan a.cells).map (fun p => ⟨a.path, a.params, a.desc, p.1, p.2⟩)

/-- The condition loop of `_parse_sublink` (lines 679-686): for every
`(key, pattern)` condition the link's path must equal the expected subpath,
the key must be present among the query parameters, and its value must
satisfy `re.match(pattern, value)` (a prefix match).  An early `break` on
failure is observationally `List.all`. -/
def condsOk (sl : Sublink) (path : String)
    (conds : List (String × List RAtom)) : Bool :=
  conds.all (fun kv =>
    sl.path == path &&
      match sl.params.lookup kv.1 with
      | some v => rmatch kv.2 v.data
      | none => false)

/-- `_parse_sublink(tag, path, conditions)`: build the sublink, then return
it iff all conditions are met. -/
def parseSublink (a : Anchor) (path : String)
    (conds : List (String × List RAtom)) : Except PyErr (Option Sublink) :=
  (mkSublink a).map (fun sl => if condsOk sl path conds then some sl else none)

/-- The claim's survival predicate (C6's wording): path equality plus, for
every condition, presence of the parameter and a FULL match of its value
against the regex. -/
def claimSurvives (sl : Sublink) (path : String)
    (conds : List (String × List RAtom)) : Bool :=
  (sl.path == path) &&
    conds.all (fun kv =>
      match sl.params.lookup kv.1 with
      | some v => rmatchFull kv.2 v.data
      | none => false)

/-! ## `EbCommandFile` construction (lines 239-250) -/

structure EbCommandFile where
  desc       : String
  id         : Int
  uploadTime : PyDatetime
  size       : Size
  deriving DecidableEq, Repr

/-- `EbCommandFile.__init__` reads `sublink.upload_time` and `sublink.size`
unconditionally; if the sidecar scan never assigned one of them, the read
raises `AttributeError`. -/
def mkEbCommandFile (sl : Sublink) (id : Int) : Except PyErr EbCommandFile :=
  match sl.uploadTime with
  | none => .error .attributeError
  | some t =>
    match sl.size with
    | none => .error .attributeError
    | some sz => .ok ⟨sl.desc, id, t, sz⟩

/-- `int(s)`: optional whitespace, an optional sign and a non-empty digit
run; anything else raises `ValueError`.  (Digit-group underscores of Python
numeric strings are not modelled; no condition-matched value contains
them.) -/
def pyInt (s : String) : Except PyErr Int :=
  let cs := pyStrip s
  let signed : Int × List Char :=
    match cs with
    | '-' :: t => (-1, t)
    | '+' :: t => (1, t)
    | _ => (1, cs)
  if !signed.2.isEmpty && signed.2.all isDigitChar then
    .ok (signed.1 * (digitsToNat signed.2 : Int))
  else .error .valueError

/-! ## Duplicate filtering (`_filter_duplicates`, lines 543-559) -/

/-- One iteration of `for i in reversed(range(0, len(folders)))`: if more
than one element of the current list shares `folders[i]`'s id, the element
at index `i` is deleted. -/
def fdStep (idOf : α → Int) (fs : List α) (i : Nat) : List α :=
  match fs[i]? with
  | none => fs
  | some x =>
    if 1 < (fs.filter (fun y => idOf y == idOf x)).length then fs.eraseIdx i
    else fs

/-- The loop: indices `n - 1` down to `0`. -/
def fdLoop (idOf : α → Int) (fs : List α) : Nat → List α
  | 0 => fs
  | i + 1 => fdLoop idOf (fdStep idOf fs i) i

/-- `EbCommand._filter_duplicates(folders)` (the Python list is mutated in
place and returned; the embedding returns its final value). -/
def filterDuplicates (idOf : α → Int) (folders : List α) : List α :=
  fdLoop idOf folders folders.length

/-- The spec's description of deduplication (§4.4): keep the first entry of
every distinct id, scanning in original order. -/
def dedupFirst (idOf : α → Int) : List α → List α
  | [] => []
  | x :: xs => x :: dedupFirst idOf (xs.filter (fun y => !(idOf y == idOf x)))
termination_by l => l.length
decreasing_by
  simp only [List.length_cons]
  exact Nat.lt_succ_of_le (List.length_filter_le _ _)

/-! ## The crawl (`_get_projects` … `_get_files` and `_request`,
lines 562-734) -/

/-- What one `_request` call produced: a non-200 response (`_request`
returns `None`), a 200 response whose content type is not HTML (`_request`
returns the raw bytes), or a parsed HTML page given by its `<a>` tags. -/
inductive Resp where
  | fail
  | raw
  | page (anchors : List Anchor)

/-- The portal: the response to each crawl request, keyed by (level, id).
Level 3 is the login POST of `_get_projects` (keyed with id 0), level 2 the
distributions page of project `id`, level 1 the versions page of
distribution `id`, level 0 the files page of version `id`.  Equal
(level, id) pairs are requests for the same URL. -/
structure Portal where
  resp : Nat → Int → Resp

structure LevelSpec where
  path  : String
  conds : List (String × List RAtom)
  idKey : String

/-- Per-level subpath, condition set and id parameter, copied from
`_get_projects`, `_get_distributions`, `_get_versions`, `_get_files`. -/
def levelSpec : Nat → LevelSpec
  | 3 => ⟨"deploy.pl", [("ProjectId", patId)], "ProjectId"⟩
  | 2 => ⟨"deploy.pl", [("Do", litPat "DISTR"), ("Id", patId)], "Id"⟩
  | 1 => ⟨"deploy.pl", [("Do", litPat "VERSION"), ("Id", patId)], "Id"⟩
  | _ => ⟨"attachment.pl", [("Do", litPat "GET"), ("Id", patId)], "Id"⟩

/-- A node of the crawled tree (its variant — project, distribution,
version, file — is determined by the level that built it). -/
inductive CEntry where
  | mk (id : Int) (desc : String) (children : List CEntry)

def CEntry.id : CEntry → Int
  | .mk i _ _ => i

def CEntry.desc : CEntry → String
  | .mk _ d _ => d

def CEntry.children : CEntry → List CEntry
  | .mk _ _ cs => cs

/-- `_get_sublinks(html_element, path, conditions)` over the `<a>` tags of
a parsed page: parse each anchor (constructing the `EbCommandSublink` can
raise) and keep the survivors in order. -/
def getSublinks (anchors : List Anchor) (path : String)
    (conds : List (String × List RAtom)) : Except PyErr (List Sublink) :=
  anchors.foldlM (fun acc a =>
    (parseSublink a path conds).map (fun o =>
      match o with
      | some sl => acc ++ [sl]
      | none => acc)) []

/-- The per-entry loop shared by `_get_projects`, `_get_distributions` and
`_get_versions`: for each surviving sublink, `int(sublink.params[idKey])`
(`KeyError` when the key is absent, `ValueError` when the value is not
numeric), the child-level crawl for that id, and the built entry appended.
An exception unwinds: later sublinks are not visited. -/
def buildStep
    (child : Int → Except PyErr (List CEntry) × List (Nat × Int))
    (idKey : String)
    (acc : Except PyErr (List CEntry) × List (Nat × Int)) (sl : Sublink) :
    Except PyErr (List CEntry) × List (Nat × Int) :=
  match acc.1 with
  | .error _ => acc
  | .ok entries =>
    match sl.params.lookup idKey with
    | none => (.error .keyError, acc.2)
    | some v =>
      match pyInt v with
      | .error e => (.error e, acc.2)
      | .ok idv =>
        match (child idv).1 with
        | .error e => (.error e, acc.2 ++ (child idv).2)
        | .ok children =>
          (.ok (entries ++ [CEntry.mk idv sl.desc children]),
           acc.2 ++ (child idv).2)

def buildEntries
    (child : Int → Except PyErr (List CEntry) × List (Nat × Int))
    (idKey : String) (sublinks : List Sublink) :
    Except PyErr (List CEntry) × List (Nat × Int) :=
  sublinks.foldl (buildStep child idKey) (.ok [], [])

/-- The loop of `_get_files`: a file entry is an `EbCommandFile`, whose
construction reads the sidecar attributes (and can raise). -/
def buildFiles (idKey : String) (sublinks : List Sublink) :
    Except PyErr (List CEntry) :=
  sublinks.foldlM (fun entries sl =>
    match sl.params.lookup idKey with
    | none => .error .keyError
    | some v => do
      let idv ← pyInt v
      let f ← mkEbCommandFile sl idv
      pure (entries ++ [CEntry.mk f.id f.desc []])) []

/-- `_get_files(version)`: one request (logged), extraction, build,
deduplication.  A `fail`/`raw` response is the `None`/bytes value that
`_request` returns, on which `_get_sublinks` calls `.find_all('a')` — an
`AttributeError`. -/
def crawlFiles (P : Portal) (pid : Int) :
    Except PyErr (List CEntry) × List (Nat × Int) :=
  match P.resp 0 pid with
  | .fail => (.error .attributeError, [(0, pid)])
  | .raw => (.error .attributeError, [(0, pid)])
  | .page anchors =>
    let sp := levelSpec 0
    match getSublinks anchors sp.path sp.conds with
    | .error e => (.error e, [(0, pid)])
    | .ok sublinks =>
      match buildFiles sp.idKey sublinks with
      | .error e => (.error e, [(0, pid)])
      | .ok files => (.ok (filterDuplicates CEntry.id files), [(0, pid)])

/-- One non-leaf `_get_*` call: request (logged), extraction, per-sublink
build with recursion into `child`, deduplication of the result. -/
def crawlStep (P : Portal)
    (child : Int → Except PyErr (List CEntry) × List (Nat × Int))
    (lvl : Nat) (pid : Int) : Except PyErr (List CEntry) × List (Nat × Int) :=
  match P.resp lvl pid with
  | .fail => (.error .attributeError, [(lvl, pid)])
  | .raw => (.error .attributeError, [(lvl, pid)])
  | .page anchors =>
    let sp := levelSpec lvl
    match getSublinks anchors sp.path sp.conds with
    | .error e => (.error e, [(lvl, pid)])
    | .ok sublinks =>
      let r := buildEntries child sp.idKey sublinks
      match r.1 with
      | .error e => (.error e, (lvl, pid) :: r.2)
      | .ok entries =>
        (.ok (filterDuplicates CEntry.id entries), (lvl, pid) :: r.2)

/-- The crawl from a given level: level 3 is `_get_projects` (whose request
is the login POST), then `_get_distributions`, `_get_versions`,
`_get_files`.  The second component is the request log, in order. -/
def crawl (P : Portal) : Nat → Int → Except PyErr (List CEntry) × List (Nat × Int)
  | 0 => crawlFiles P
  | l + 1 => crawlStep P (crawl P l) (l + 1)

/-- `EbCommand.__init__` → `self._projects = self._get_projects()`. -/
def getProjects (P : Portal) : Except PyErr (List CEntry) × List (Nat × Int) :=
  crawl P 3 0

/-! ## The filtering engine (`EbCommandEntry.filter` lines 201-232,
`EbCommand.filter` lines 514-541)

Python lists are heap objects; `copy.copy(self)` copies the entry object
but SHARES its `subentries` list, and the `clear()`/`extend()` pair then
rewrites that shared list in place.  The embedding threads a store mapping
list references to their current contents.  Entry objects are never
field-mutated by `filter` (only their lists are), so an entry is a plain
value holding the reference of its children list; the `copy.copy` result
has the same field values — including the same list reference — as the
original. -/

/-- An `EbCommandEntry`: description, id, and the reference of its
`subentries` list. -/
structure ENode where
  desc        : String
  id          : Int
  childrenRef : Nat
  deriving DecidableEq, Repr

/-- The heap of Python list objects. -/
def Store := Nat → List ENode

def Store.set (σ : Store) (r : Nat) (v : List ENode) : Store :=
  fun r' => if r' = r then v else σ r'

/-- The `for subentry in self_copy.subentries` loop: `next` is the
recursive filtering of one child (`None` in the embedding when only one
pattern remains, matching Python's `len(subs_patterns) > 1` guard, in which
case the child is taken as is); the (possibly filtered) child is kept iff
`re.match(subs_patterns[0], description)` succeeds.  Accumulates the kept
children in order and threads the store through the recursive calls. -/
def filtLoop (m : Pat → String → Bool) (p : Pat)
    (next : Option (Store → ENode → Option ENode × Store)) :
    Store → List ENode → List ENode × Store
  | σ, [] => ([], σ)
  | σ, c :: cs' =>
    let r : Option ENode × Store :=
      match next with
      | none => (some c, σ)
      | some f => f σ c
    let keep : List ENode × Store :=
      match r.1 with
      | some c3 => if m p c3.desc then ([c3], r.2) else ([], r.2)
      | none => ([], r.2)
    let tailRes := filtLoop m p next keep.2 cs'
    (keep.1 ++ tailRes.1, tailRes.2)

/-- `EbCommandEntry.filter(subs_patterns)` under an abstract `re.match`
truthiness `m`.  Returns the Python return value — the shallow copy (whose
field values, including the children-list reference, equal `e`'s) or
`None` — together with the post-call store.  With an empty pattern list the
loop body is skipped and nothing is mutated; otherwise the children are
visited (each visit can mutate grandchild lists), and `clear()`/`extend()`
rewrites this entry's own shared list with the survivors. -/
def filt (m : Pat → String → Bool) : List Pat → Store → ENode → Option ENode × Store
  | [], σ, e => (if 0 < (σ e.childrenRef).length then some e else none, σ)
  | p :: rest, σ, e =>
    let next : Option (Store → ENode → Option ENode × Store) :=
      match rest with
      | [] => none
      | _ :: _ => some (filt m rest)
    let res := filtLoop m p next σ (σ e.childrenRef)
    let σ2 := res.2.set e.childrenRef res.1
    (if 0 < res.1.length then some e else none, σ2)

/-- The body of the `for project in self._projects` loop of
`EbCommand.filter`. -/
def ebFilterStep (m : Pat → String → Bool) (pp pd pv pf : Pat)
    (acc : List ENode × Store) (proj : ENode) : List ENode × Store :=
  if m pp proj.desc then
    match filt m [pd, pv, pf] acc.2 proj with
    | (some p2, σ') => (acc.1 ++ [p2], σ')
    | (none, σ') => (acc.1, σ')
  else acc

/-- `EbCommand.filter(pattern_projects, pattern_distributions,
pattern_versions, pattern_files)`: iterate the original project list; a
project whose description matches the project pattern is recursively
filtered with the remaining three patterns and kept iff that succeeds.  The
copied client gets a NEW `_projects` list (the original list object is not
rewritten), but matched projects' subtrees are filtered in place. -/
def ebFilter (m : Pat → String → Bool) (σ : Store) (projects : List ENode)
    (pp pd pv pf : Pat) : List ENode × Store :=
  projects.foldl (ebFilterStep m pp pd pv pf) ([], σ)

/-! ## Concrete inputs used by the claim theorems -/

/-- `re.match` truthiness instantiated with the embedded regex language. -/
def reMatchStr (p : List RAtom) (s : String) : Bool := rmatch p s.data

def storeC1 : Store := fun r => if r = 0 then [⟨"b", 1, 1⟩] else []

def entC1 : ENode := ⟨"root", 0, 0⟩

def storeC3 : Store := fun _ => []

def entC3 : ENode := ⟨"leaf", 4, 0⟩

def storeC3w : Store := fun r => if r = 0 then [⟨"child", 9, 1⟩] else []

def portalC4 : Portal :=
  ⟨fun lvl pid =>
    if lvl = 3 ∧ pid = 0 then
      .page [⟨"deploy.pl", [("ProjectId", "7")], "Proj A", none⟩]
    else .fail⟩

def anchorC10 : Anchor :=
  ⟨"attachment.pl", [("Do", "GET"), ("Id", "5")], "readme.txt", none⟩

def sublinkC10 : Sublink :=
  ⟨"attachment.pl", [("Do", "GET"), ("Id", "5")], "readme.txt", none, none⟩

def sublinkC6 : Sublink := ⟨"deploy.pl", [("Id", "12abc")], "entry", none, none⟩

/-! ## Claim C4 -/

/-- C4: the claim says a transport-level failure during the crawl is
non-fatal (empty entry list, no exception).  In the code it is fatal: when
the distributions request of project 7 gets a non-200 response, `_request`
returns `None`, `_get_sublinks` calls `None.find_all('a')`, and the
resulting `AttributeError` propagates out of the crawl (the request log
confirms the failing request was made). -/
theorem c4_transport_failure_raises :
    (getProjects portalC4).1 = .error .attributeError ∧
    (getProjects portalC4).2 = [(3, 0), (2, 7)] :=
  ⟨rfl, rfl⟩

/-! ## Claim C10 -/

/-- C10: the claim says `uploadTime`/`size` are optional on `File` entries.
In the code, a file anchor with no enclosing table row produces a sublink
on which neither `upload_time` nor `size` was ever assigned, and
`EbCommandFile.__init__` reading `sublink.upload_time` then raises
`AttributeError` instead of building an entry with the fields absent. -/
theorem c10_absent_sidecar_raises :
    mkSublink anchorC10 = .ok sublinkC10 ∧
    mkEbCommandFile sublinkC10 5 = .error .attributeError :=
  ⟨rfl, rfl⟩

/-! ## Claim C6 -/

/-- C6 (counterexample): under condition `Id ↦ \d+` a link with parameter
value `"12abc"` survives — `re.match` accepts the prefix `"12"` — although
the value does not FULLY match the regex, so the claim's "survives iff …
fully matches" is false at this input. -/
theorem c6_counterexample :
    parseSublink ⟨"deploy.pl", [("Id", "12abc")], "entry", none⟩ "deploy.pl"
        [("Id", patId)] = .ok (some sublinkC6) ∧
    rmatchFull patId "12abc".data = false ∧
    claimSurvives sublinkC6 "deploy.pl" [("Id", patId)] = false :=
  ⟨rfl, by decide, by decide⟩

/-- C6 (amended): an anchor survives condition matching iff either the
condition set is empty (nothing, not even the path, is checked), or the
link's path equals the expected subpath and every condition's parameter is
present among the link's query parameters with a value matching the regex
from the start (prefix match, not necessarily the whole value). -/
theorem c6_condition_matching (sl : Sublink) (path : String)
    (conds : List (String × List RAtom)) :
    condsOk sl path conds = true ↔
      (conds = [] ∨
        (sl.path = path ∧ ∀ kv ∈ conds, ∃ v,
          sl.params.lookup kv.1 = some v ∧ rmatch kv.2 v.data = true)) := by
  unfold condsOk
  rw [List.all_eq_true]
  constructor
  · intro h
    cases conds with
    | nil => exact Or.inl rfl
    | cons kv0 rest =>
      have h0 := h kv0 (List.mem_cons_self _ _)
      rw [Bool.and_eq_true] at h0
      refine Or.inr ⟨beq_iff_eq.mp h0.1, fun kv hkv => ?_⟩
      have hx := h kv hkv
      rw [Bool.and_eq_true] at hx
      cases hl : sl.params.lookup kv.1 with
      | none => rw [hl] at hx; exact absurd hx.2 (by simp)
      | some v => rw [hl] at hx; exact ⟨v, rfl, hx.2⟩
  · intro h kv hkv
    rcases h with h | ⟨hp, hall⟩
    · subst h; cases hkv
    · rcases hall kv hkv with ⟨v, hv, hm⟩
      rw [Bool.and_eq_true, hv]
      exact ⟨beq_iff_eq.mpr hp, hm⟩

/-! ## Claim C3 -/

/-- C3 (counterexample): `filter(e, [])` on a childless entry returns
`None`, not a copy of the entry — the claim's "regardless of children" is
false. -/
theorem c3_counterexample :
    (filt reMatchStr [] storeC3 entC3).1 = none ∧
    (filt reMatchStr [] storeC3 entC3).1 ≠ some entC3 :=
  ⟨rfl, by decide⟩

/-- C3 (amended): with an empty pattern list nothing is filtered and the
store is untouched, but the final at-least-one-child check still applies:
the entry is returned (as a copy) iff it has at least one child, and a
childless entry yields `None`. -/
theorem c3_empty_patterns {Pat : Type} (m : Pat → String → Bool)
    (σ : Store) (e : ENode) :
    (filt m [] σ e).2 = σ ∧
    (0 < (σ e.childrenRef).length → (filt m [] σ e).1 = some e) ∧
    ((σ e.childrenRef).length = 0 → (filt m [] σ e).1 = none) := by
  refine ⟨rfl, fun h => ?_, fun h => ?_⟩
  · simp [filt, h]
  · simp [filt, h]

theorem c3_empty_patterns_witness :
    (filt reMatchStr [] storeC3w entC3).1 = some entC3 :=
  (c3_empty_patterns reMatchStr storeC3w entC3).2.1 (by decide)

/-! ## Claim C1 -/

/-- C1 (counterexample): filtering an entry whose single child "b" fails
the pattern "a" CLEARS the original entry's children list in the store: the
source tree is mutated, contradicting the claimed non-mutation (and the
claimed fresh children list). -/
theorem c1_counterexample :
    (filt reMatchStr [litPat "a"] storeC1 entC1).2 entC1.childrenRef = [] ∧
    storeC1 entC1.childrenRef = [⟨"b", 1, 1⟩] :=
  ⟨by decide, by decide⟩

/-- C1 (amended): `filter` returns — when not `None` — a shallow copy whose
field values, including the children-list REFERENCE, are exactly the
original's: copy and original share one children list, so mutating the
copy's children affects the source.  And whenever the result is `None`
the call has left the original's children list empty (the shared list is
cleared and refilled in place with the survivors). -/
theorem filt_cons_shape {Pat : Type} (m : Pat → String → Bool) (p : Pat)
    (rest : List Pat) (σ : Store) (e : ENode) :
    ∃ q : List ENode × Store,
      filt m (p :: rest) σ e =
        (if 0 < q.1.length then some e else none, q.2.set e.childrenRef q.1) :=
  ⟨_, rfl⟩

theorem c1_filter_shares_and_mutates {Pat : Type} (m : Pat → String → Bool)
    (σ : Store) (e : ENode) (pats : List Pat) :
    (∀ r, (filt m pats σ e).1 = some r → r = e) ∧
    ((filt m pats σ e).1 = none → (filt m pats σ e).2 e.childrenRef = []) := by
  cases pats with
  | nil =>
    refine ⟨fun r h => ?_, fun h => ?_⟩
    · by_cases hc : 0 < (σ e.childrenRef).length
      · simp [filt, hc] at h
        exact h.symm
      · simp [filt, hc] at h
    · by_cases hc : 0 < (σ e.childrenRef).length
      · simp [filt, hc] at h
      · show σ e.childrenRef = []
        exact List.eq_nil_of_length_eq_zero (Nat.eq_zero_of_not_pos hc)
  | cons p rest =>
    obtain ⟨q, hq⟩ := filt_cons_shape m p rest σ e
    rw [hq]
    refine ⟨fun r h => ?_, fun h => ?_⟩
    · by_cases hc : 0 < q.1.length
      · simp [hc] at h
        exact h.symm
      · simp [hc] at h
    · by_cases hc : 0 < q.1.length
      · simp [hc] at h
      · have hnil : q.1 = [] :=
          List.eq_nil_of_length_eq_zero (Nat.eq_zero_of_not_pos hc)
        simp [Store.set, hnil]

theorem c1_filter_shares_and_mutates_witness :
    (filt reMatchStr [litPat "z"] storeC1 entC1).2 entC1.childrenRef = [] :=
  (c1_filter_shares_and_mutates reMatchStr storeC1 entC1 [litPat "z"]).2
    (by decide)

/-! ## Claim C7 -/

def storeC7 : Store := fun r =>
  if r = 0 then [⟨"d", 1, 1⟩]
  else if r = 1 then [⟨"v", 2, 2⟩]
  else if r = 2 then [⟨"f", 3, 3⟩]
  else []

def projC7bad : ENode := ⟨"p", 10, 5⟩

def projC7ok : ENode := ⟨"p", 10, 0⟩

/-- `\.*` matches every string under `re.match`'s prefix semantics. -/
theorem rmatch_patAnyChar (cs : List Char) : rmatch patAnyChar cs = true := by
  cases cs <;> simp [patAnyChar, rmatch, rmatchStar]

/-- C7 (counterexample): a crawled tree may contain a childless project (a
project whose distributions page yielded no surviving anchors); filtering
with the all-matching default patterns `\.*` drops it, so the filtered copy
does not retain the same projects. -/
theorem c7_counterexample :
    (ebFilter reMatchStr storeC7 [projC7bad]
        patAnyChar patAnyChar patAnyChar patAnyChar).1 = [] ∧
    ([projC7bad] : List ENode) ≠ [] :=
  ⟨by decide, by decide⟩

theorem Store.set_self (σ : Store) (r : Nat) : σ.set r (σ r) = σ := by
  funext r'
  unfold Store.set
  by_cases h : r' = r
  · subst h; simp
  · simp [h]

/-- `filter` with exactly one pattern, unfolded. -/
theorem filt_one_eq {Pat : Type} (m : Pat → String → Bool) (p : Pat)
    (σ : Store) (e : ENode) :
    filt m [p] σ e =
      ((if 0 < (filtLoop m p none σ (σ e.childrenRef)).1.length then some e
        else none),
       (filtLoop m p none σ (σ e.childrenRef)).2.set e.childrenRef
         (filtLoop m p none σ (σ e.childrenRef)).1) := rfl

/-- `filter` with at least two patterns, unfolded. -/
theorem filt_cons2_eq {Pat : Type} (m : Pat → String → Bool) (p r0 : Pat)
    (rs : List Pat) (σ : Store) (e : ENode) :
    filt m (p :: r0 :: rs) σ e =
      ((if 0 <
          (filtLoop m p (some (filt m (r0 :: rs))) σ (σ e.childrenRef)).1.length
        then some e else none),
       (filtLoop m p (some (filt m (r0 :: rs))) σ (σ e.childrenRef)).2.set
         e.childrenRef
         (filtLoop m p (some (filt m (r0 :: rs))) σ (σ e.childrenRef)).1) := rfl

/-- Down to depth `d`, every node of the subtree rooted at `e` has at least
one child. -/
def nonEmptyTo (σ : Store) : Nat → ENode → Bool
  | 0, _ => true
  | d + 1, e =>
    !(σ e.childrenRef).isEmpty && (σ e.childrenRef).all (nonEmptyTo σ d)

/-- The child loop with no recursion (one remaining pattern): when every
child matches the head pattern, everything is kept and the store is
untouched. -/
theorem filtLoop_none_id {Pat : Type} (m : Pat → String → Bool) (p : Pat)
    (σ : Store) (cs : List ENode) (hm : ∀ c ∈ cs, m p c.desc = true) :
    filtLoop m p none σ cs = (cs, σ) := by
  induction cs with
  | nil => rfl
  | cons c cs' ih =>
    simp only [filtLoop]
    simp [hm c (List.mem_cons_self c cs'),
          ih (fun x hx => hm x (List.mem_cons_of_mem c hx))]

/-- The child loop with recursion: when the recursive call returns every
child unchanged with an unchanged store and every child matches the head
pattern, everything is kept and the store is untouched. -/
theorem filtLoop_some_id {Pat : Type} (m : Pat → String → Bool) (p : Pat)
    (f : Store → ENode → Option ENode × Store) (σ : Store) (cs : List ENode)
    (hf : ∀ c ∈ cs, f σ c = (some c, σ))
    (hm : ∀ c ∈ cs, m p c.desc = true) :
    filtLoop m p (some f) σ cs = (cs, σ) := by
  induction cs with
  | nil => rfl
  | cons c cs' ih =>
    simp only [filtLoop]
    simp [hf c (List.mem_cons_self c cs'), hm c (List.mem_cons_self c cs'),
          ih (fun x hx => hf x (List.mem_cons_of_mem c hx))
             (fun x hx => hm x (List.mem_cons_of_mem c hx))]

/-- With at least one pattern, patterns that match every description, and a
subtree whose nodes all have a child down to the pattern depth, `filter` is
the identity: it returns the copied entry and leaves the store unchanged. -/
theorem filt_all_match {Pat : Type} (m : Pat → String → Bool)
    (pats : List Pat) :
    pats ≠ [] → (∀ p ∈ pats, ∀ s, m p s = true) →
    ∀ (σ : Store) (e : ENode), nonEmptyTo σ pats.length e = true →
      filt m pats σ e = (some e, σ) := by
  induction pats with
  | nil => intro h; cases h rfl
  | cons p rest ih =>
    intro _ hall σ e hne
    simp only [nonEmptyTo, List.length_cons, Bool.and_eq_true] at hne
    obtain ⟨hne1, hne2⟩ := hne
    rw [List.all_eq_true] at hne2
    have hmp : ∀ c ∈ σ e.childrenRef, m p c.desc = true :=
      fun c _ => hall p (List.mem_cons_self p rest) c.desc
    have hlen : 0 < (σ e.childrenRef).length := by
      cases hcs : σ e.childrenRef with
      | nil => rw [hcs] at hne1; simp [List.isEmpty] at hne1
      | cons a l => simp
    cases rest with
    | nil =>
      rw [filt_one_eq, filtLoop_none_id m p σ (σ e.childrenRef) hmp]
      simp [hlen, Store.set_self]
    | cons r0 rs =>
      have ihch : ∀ c ∈ σ e.childrenRef, filt m (r0 :: rs) σ c = (some c, σ) :=
        fun c hc =>
          ih (by simp) (fun q hq s => hall q (List.mem_cons_of_mem p hq) s)
            σ c (hne2 c hc)
      rw [filt_cons2_eq,
        filtLoop_some_id m p (filt m (r0 :: rs)) σ (σ e.childrenRef) ihch hmp]
      simp [hlen, Store.set_self]

/-- C7 (amended): under all-matching patterns, filtering returns a
structurally equal copy — the same projects and the untouched store (hence
the same children and leaf count at every level) — PROVIDED every project,
distribution and version in the tree has at least one child; otherwise the
childless branch is dropped (see the counterexample). -/
theorem c7_all_match_id {Pat : Type} (m : Pat → String → Bool)
    (σ : Store) (projects : List ENode) (pp pd pv pf : Pat)
    (hpp : ∀ s, m pp s = true) (hpd : ∀ s, m pd s = true)
    (hpv : ∀ s, m pv s = true) (hpf : ∀ s, m pf s = true)
    (hne : ∀ proj ∈ projects, nonEmptyTo σ 3 proj = true) :
    ebFilter m σ projects pp pd pv pf = (projects, σ) := by
  have hfilt : ∀ proj ∈ projects, filt m [pd, pv, pf] σ proj = (some proj, σ) := by
    intro proj hp
    refine filt_all_match m [pd, pv, pf] (by simp) ?_ σ proj (hne proj hp)
    intro q hq s
    simp only [List.mem_cons, List.not_mem_nil, or_false] at hq
    rcases hq with h | h | h
    · rw [h]; exact hpd s
    · rw [h]; exact hpv s
    · rw [h]; exact hpf s
  have main : ∀ (ps : List ENode) (acc : List ENode),
      (∀ proj ∈ ps, filt m [pd, pv, pf] σ proj = (some proj, σ)) →
      ps.foldl (ebFilterStep m pp pd pv pf) (acc, σ) = (acc ++ ps, σ) := by
    intro ps
    induction ps with
    | nil => intro acc _; simp
    | cons proj ps' ih =>
      intro acc hok
      rw [List.foldl_cons]
      have hstep : ebFilterStep m pp pd pv pf (acc, σ) proj = (acc ++ [proj], σ) := by
        unfold ebFilterStep
        rw [hpp proj.desc, if_pos rfl]
        rw [hok proj (List.mem_cons_self proj ps')]
      rw [hstep, ih (acc ++ [proj])
        (fun x hx => hok x (List.mem_cons_of_mem proj hx))]
      simp
  unfold ebFilter
  exact main projects [] hfilt

theorem c7_all_match_id_witness :
    ebFilter reMatchStr storeC7 [projC7ok]
        patAnyChar patAnyChar patAnyChar patAnyChar = ([projC7ok], storeC7) :=
  c7_all_match_id reMatchStr storeC7 [projC7ok] _ _ _ _
    (fun s => rmatch_patAnyChar s.data) (fun s => rmatch_patAnyChar s.data)
    (fun s => rmatch_patAnyChar s.data) (fun s => rmatch_patAnyChar s.data)
    (by decide)

/-! ## Claim C5 -/

/-- The datetime a cell contributes: the timestamp match of its stripped
text fed into `datetime`. -/
def cellDt (cell : String) : Option PyDatetime :=
  match matchUploadTime (pyStrip cell) with
  | some (y, mo, d, h, mi, s) => mkDatetime y mo d h mi s
  | none => none

/-- The size a cell contributes. -/
def cellSize (cell : String) : Option Size :=
  sizeParse (String.mk (pyStrip cell))

/-- The last element of `l`, or `dflt` when `l` is empty. -/
def lastOr (l : List α) (dflt : Option α) : Option α :=
  match l with
  | [] => dflt
  | x :: xs => lastOr xs (some x)

/-- C5 (counterexample): with two timestamp cells in one row, the SECOND
match overwrites the first: the recorded upload time is 2024-02-06, not the
first-matching cell's 2023-01-05 required by the claim. -/
theorem c5_counterexample :
    sidecarScan (some ["2023-01-05 10:00:00", "2024-02-06 11:00:00"])
      = .ok (some ⟨2024, 2, 6, 11, 0, 0⟩, none) ∧
    (⟨2024, 2, 6, 11, 0, 0⟩ : PyDatetime) ≠ ⟨2023, 1, 5, 10, 0, 0⟩ :=
  ⟨rfl, by decide⟩

theorem sidecar_fold (cells : List String)
    (hok : ∀ cell ∈ cells, (matchUploadTime (pyStrip cell)).isSome →
      (cellDt cell).isSome) :
    ∀ acc : Option PyDatetime × Option Size,
      cells.foldlM sidecarStep acc =
        .ok (lastOr (cells.filterMap cellDt) acc.1,
             lastOr ((cells.filter fun c =>
               (matchUploadTime (pyStrip c)).isNone).filterMap cellSize)
               acc.2) := by
  induction cells with
  | nil => intro acc; rfl
  | cons c cl ih =>
    intro acc
    rw [List.foldlM_cons]
    have ih' := ih (fun x hx => hok x (List.mem_cons_of_mem c hx))
    cases hm : matchUploadTime (pyStrip c) with
    | some g =>
      obtain ⟨y, mo, d, h, mi, s⟩ := g
      have hdt : (cellDt c).isSome :=
        hok c (List.mem_cons_self c cl) (by rw [hm]; rfl)
      cases hdt' : mkDatetime y mo d h mi s with
      | none =>
        exfalso
        simp only [cellDt, hm, hdt', Option.isSome] at hdt
        exact Bool.false_ne_true hdt
      | some dt =>
        have hstep : sidecarStep acc c = .ok (some dt, acc.2) := by
          simp only [sidecarStep, hm, hdt']
        rw [hstep]
        show cl.foldlM sidecarStep (some dt, acc.2) = _
        rw [ih' (some dt, acc.2)]
        have hcell : cellDt c = some dt := by
          simp only [cellDt, hm, hdt']
        have hfalse : (matchUploadTime (pyStrip c)).isNone = false := by
          rw [hm]; rfl
        simp only [List.filterMap_cons, List.filter_cons, hcell, hfalse,
          Bool.false_eq_true, if_false, lastOr]
    | none =>
      cases hs : sizeParse (String.mk (pyStrip c)) with
      | some sz =>
        have hstep : sidecarStep acc c = .ok (acc.1, some sz) := by
          simp only [sidecarStep, hm, hs]
        rw [hstep]
        show cl.foldlM sidecarStep (acc.1, some sz) = _
        rw [ih' (acc.1, some sz)]
        have hcell : cellDt c = none := by simp only [cellDt, hm]
        have htrue : (matchUploadTime (pyStrip c)).isNone = true := by
          rw [hm]; rfl
        have hsz : cellSize c = some sz := by
          simp only [cellSize, hs]
        simp only [List.filterMap_cons, List.filter_cons, hcell, htrue,
          if_true, hsz, lastOr]
      | none =>
        have hstep : sidecarStep acc c = .ok acc := by
          simp only [sidecarStep, hm, hs]
        rw [hstep]
        show cl.foldlM sidecarStep acc = _
        rw [ih' acc]
        have hcell : cellDt c = none := by simp only [cellDt, hm]
        have htrue : (matchUploadTime (pyStrip c)).isNone = true := by
          rw [hm]; rfl
        have hsz : cellSize c = none := by
          simp only [cellSize, hs]
        simp only [List.filterMap_cons, List.filter_cons, hcell, htrue,
          if_true, hsz, lastOr]

/-- C5 (amended): the LAST matching cell of each kind wins.  Provided every
timestamp-matching cell passes `datetime` validation, the recorded
`upload_time` is the datetime of the last timestamp-matching cell, and the
recorded `size` the parse of the last size-parsing cell among the cells
that did not match the timestamp pattern; non-matching cells are ignored
silently, and a row still contributes at most one value of each kind. -/
theorem c5_last_match_wins (cells : List String)
    (hok : ∀ cell ∈ cells, (matchUploadTime (pyStrip cell)).isSome →
      (cellDt cell).isSome) :
    sidecarScan (some cells) =
      .ok (lastOr (cells.filterMap cellDt) none,
           lastOr ((cells.filter fun c =>
             (matchUploadTime (pyStrip c)).isNone).filterMap cellSize)
             none) := by
  unfold sidecarScan
  exact sidecar_fold cells hok (none, none)

theorem c5_last_match_wins_witness :
    sidecarScan (some ["2023-01-05 10:00:00", "yjk", "4.2 MB", "1 KB"])
      = .ok (some ⟨2023, 1, 5, 10, 0, 0⟩, some ⟨1, .KILO_BYTE⟩) := by
  rw [c5_last_match_wins _ (by decide)]
  decide

/-! ## Claim C2 -/

def portalC2 : Portal :=
  ⟨fun lvl pid =>
    if lvl = 3 ∧ pid = 0 then
      .page [⟨"deploy.pl", [("ProjectId", "7")], "a", none⟩,
             ⟨"deploy.pl", [("ProjectId", "7")], "b", none⟩]
    else if lvl = 2 ∧ pid = 7 then .page []
    else .fail⟩

/-- C2 (counterexample): two surviving anchors with `ProjectId=7` on the
projects page make the crawl fetch the distributions page of id 7 TWICE
(the request log records `(2, 7)` twice): deduplication has not happened
before the recursion, so the duplicate parent is separately re-crawled.
The final project list is nevertheless deduplicated to the first entry. -/
theorem c2_counterexample :
    (crawl portalC2 3 0).2 = [(3, 0), (2, 7), (2, 7)] ∧
    (crawl portalC2 3 0).2.count (2, 7) = 2 ∧
    (crawl portalC2 3 0).1 = .ok [.mk 7 "a" []] :=
  ⟨rfl, by decide, rfl⟩

/-- `exc.isOk`-style discriminator (kept local for decidability in
witnesses). -/
def exOk {ε α : Type} : Except ε α → Bool
  | .ok _ => true
  | .error _ => false

/-- The ids `int(sublink.params[idKey])` of a list of surviving sublinks,
with the exceptions the id computation can raise. -/
def idsOf (idKey : String) : List Sublink → Except PyErr (List Int)
  | [] => .ok []
  | sl :: rest =>
    match sl.params.lookup idKey with
    | none => .error .keyError
    | some v =>
      match pyInt v with
      | .error e => .error e
      | .ok i =>
        match idsOf idKey rest with
        | .error e => .error e
        | .ok is => .ok (i :: is)

/-- One build step either keeps the log or appends one child crawl's log. -/
theorem buildStep_log_sub
    (child : Int → Except PyErr (List CEntry) × List (Nat × Int))
    (idKey : String) (acc : Except PyErr (List CEntry) × List (Nat × Int))
    (sl : Sublink) :
    ∀ q ∈ (buildStep child idKey acc sl).2, q ∈ acc.2 ∨ ∃ i, q ∈ (child i).2 := by
  intro q hq
  unfold buildStep at hq
  cases hacc : acc.1 with
  | error e => simp only [hacc] at hq; exact Or.inl hq
  | ok entries =>
    simp only [hacc] at hq
    cases hl : sl.params.lookup idKey with
    | none => simp only [hl] at hq; exact Or.inl hq
    | some v =>
      simp only [hl] at hq
      cases hi : pyInt v with
      | error e => simp only [hi] at hq; exact Or.inl hq
      | ok idv =>
        simp only [hi] at hq
        cases hc : (child idv).1 with
        | error e =>
          simp only [hc] at hq
          rcases List.mem_append.mp hq with h | h
          · exact Or.inl h
          · exact Or.inr ⟨idv, h⟩
        | ok children =>
          simp only [hc] at hq
          rcases List.mem_append.mp hq with h | h
          · exact Or.inl h
          · exact Or.inr ⟨idv, h⟩

/-- Log entries of the build fold satisfy any predicate holding on the
initial log and on every child crawl's log. -/
theorem foldl_buildStep_log
    (child : Int → Except PyErr (List CEntry) × List (Nat × Int))
    (idKey : String) (motive : Nat × Int → Prop)
    (hchild : ∀ i, ∀ q ∈ (child i).2, motive q) :
    ∀ (sls : List Sublink) (acc),
      (∀ q ∈ acc.2, motive q) →
      ∀ q ∈ (sls.foldl (buildStep child idKey) acc).2, motive q := by
  intro sls
  induction sls with
  | nil => intro acc hacc q hq; exact hacc q hq
  | cons sl sls' ih =>
    intro acc hacc q hq
    rw [List.foldl_cons] at hq
    refine ih (buildStep child idKey acc sl) ?_ q hq
    intro q' hq'
    rcases buildStep_log_sub child idKey acc sl q' hq' with h | ⟨i, h⟩
    · exact hacc q' h
    · exact hchild i q' h

/-- `_get_files` logs exactly its own request. -/
theorem crawlFiles_log (P : Portal) (pid : Int) :
    (crawl P 0 pid).2 = [(0, pid)] := by
  show (crawlFiles P pid).2 = [(0, pid)]
  unfold crawlFiles
  cases hr : P.resp 0 pid with
  | fail => simp [hr]
  | raw => simp [hr]
  | page anchors =>
    simp only [hr]
    cases hs : getSublinks anchors (levelSpec 0).path (levelSpec 0).conds with
    | error e => simp [hs]
    | ok sublinks =>
      simp only [hs]
      cases hb : buildFiles (levelSpec 0).idKey sublinks with
      | error e => simp [hb]
      | ok files => simp [hb]

/-- Every request logged by `crawl P l` is at a level at most `l`. -/
theorem crawl_log_level (P : Portal) :
    ∀ (l : Nat) (pid : Int), ∀ q ∈ (crawl P l pid).2, q.1 ≤ l := by
  intro l
  induction l with
  | zero =>
    intro pid q hq
    rw [crawlFiles_log P pid] at hq
    rcases List.mem_singleton.mp hq with rfl
    exact Nat.le_refl 0
  | succ l ih =>
    intro pid q hq
    have hq' : q ∈ (crawlStep P (crawl P l) (l + 1) pid).2 := hq
    unfold crawlStep at hq'
    cases hr : P.resp (l + 1) pid with
    | fail =>
      simp only [hr] at hq'
      rcases List.mem_singleton.mp hq' with rfl
      exact Nat.le_refl _
    | raw =>
      simp only [hr] at hq'
      rcases List.mem_singleton.mp hq' with rfl
      exact Nat.le_refl _
    | page anchors =>
      simp only [hr] at hq'
      cases hs : getSublinks anchors (levelSpec (l + 1)).path
          (levelSpec (l + 1)).conds with
      | error e =>
        simp only [hs] at hq'
        rcases List.mem_singleton.mp hq' with rfl
        exact Nat.le_refl _
      | ok sublinks =>
        simp only [hs] at hq'
        have hsub : ∀ r ∈ (buildEntries (crawl P l) (levelSpec (l + 1)).idKey
            sublinks).2, r.1 ≤ l + 1 := by
          refine foldl_buildStep_log (crawl P l) (levelSpec (l + 1)).idKey
            (fun r => r.1 ≤ l + 1) ?_ sublinks (.ok [], []) ?_
          · intro i r hr'
            exact Nat.le_succ_of_le (ih i r hr')
          · intro r hr'
            cases hr'
        cases hb : (buildEntries (crawl P l) (levelSpec (l + 1)).idKey
            sublinks).1 with
        | error e =>
          simp only [buildEntries] at hsub
          simp only [hb] at hq'
          rcases List.mem_cons.mp hq' with rfl | h
          · exact Nat.le_refl _
          · exact hsub q h
        | ok entries =>
          simp only [buildEntries] at hsub
          simp only [hb] at hq'
          rcases List.mem_cons.mp hq' with rfl | h
          · exact Nat.le_refl _
          · exact hsub q h

/-- The request log of `crawl P l pid` starts with its own request, and
every later entry is at a strictly lower level. -/
theorem crawl_log_shape (P : Portal) (l : Nat) (pid : Int) :
    ∃ rest, (crawl P l pid).2 = (l, pid) :: rest ∧ ∀ q ∈ rest, q.1 < l := by
  cases l with
  | zero =>
    exact ⟨[], crawlFiles_log P pid, fun q hq => absurd hq (List.not_mem_nil q)⟩
  | succ l =>
    show ∃ rest, (crawlStep P (crawl P l) (l + 1) pid).2 = _ ∧ _
    unfold crawlStep
    cases hr : P.resp (l + 1) pid with
    | fail =>
      refine ⟨[], ?_, fun q hq => absurd hq (List.not_mem_nil q)⟩
      simp [hr]
    | raw =>
      refine ⟨[], ?_, fun q hq => absurd hq (List.not_mem_nil q)⟩
      simp [hr]
    | page anchors =>
      simp only [hr]
      cases hs : getSublinks anchors (levelSpec (l + 1)).path
          (levelSpec (l + 1)).conds with
      | error e =>
        refine ⟨[], ?_, fun q hq => absurd hq (List.not_mem_nil q)⟩
        simp [hs]
      | ok sublinks =>
        simp only [hs]
        have hsub : ∀ r ∈ (buildEntries (crawl P l) (levelSpec (l + 1)).idKey
            sublinks).2, r.1 < l + 1 := by
          refine foldl_buildStep_log (crawl P l) (levelSpec (l + 1)).idKey
            (fun r => r.1 < l + 1) ?_ sublinks (.ok [], []) ?_
          · intro i r hr'
            exact Nat.lt_succ_of_le (crawl_log_level P l i r hr')
          · intro r hr'
            cases hr'
        cases hb : (buildEntries (crawl P l) (levelSpec (l + 1)).idKey
            sublinks).1 with
        | error e =>
          refine ⟨(buildEntries (crawl P l) (levelSpec (l + 1)).idKey
            sublinks).2, ?_, hsub⟩
          simp [hb]
        | ok entries =>
          refine ⟨(buildEntries (crawl P l) (levelSpec (l + 1)).idKey
            sublinks).2, ?_, hsub⟩
          simp [hb]

/-- `crawl P l pid` logs a request `(l, x)` exactly once when `x = pid`
and never otherwise: the head request is its own, deeper requests are at
lower levels. -/
theorem crawl_log_count_self (P : Portal) (l : Nat) (pid x : Int) :
    (crawl P l pid).2.count (l, x) = if x = pid then 1 else 0 := by
  obtain ⟨rest, hshape, hlt⟩ := crawl_log_shape P l pid
  rw [hshape, List.count_cons]
  have hzero : rest.count (l, x) = 0 := by
    refine List.count_eq_zero.mpr (fun hm => ?_)
    exact Nat.lt_irrefl l (hlt _ hm)
  rw [hzero]
  by_cases hx : x = pid
  · subst hx
    simp
  · simp [hx, Ne.symm hx]

/-- Under a fully successful build (every id parses, every child crawl
succeeds) the build fold succeeds and its log is the concatenation of the
child crawls' logs, one per surviving sublink in order — duplicates
included. -/
theorem foldl_buildStep_ok
    (child : Int → Except PyErr (List CEntry) × List (Nat × Int))
    (idKey : String) :
    ∀ (sls : List Sublink) (ids : List Int) (e0 : List CEntry)
      (log0 : List (Nat × Int)),
      idsOf idKey sls = .ok ids →
      (∀ i ∈ ids, exOk (child i).1 = true) →
      ∃ es, sls.foldl (buildStep child idKey) (.ok e0, log0) =
        (.ok es, log0 ++ (ids.map (fun i => (child i).2)).flatten) := by
  intro sls
  induction sls with
  | nil =>
    intro ids e0 log0 hids _
    simp only [idsOf] at hids
    injection hids with h
    subst h
    exact ⟨e0, by simp⟩
  | cons sl sls' ih =>
    intro ids e0 log0 hids hok
    simp only [idsOf] at hids
    cases hl : sl.params.lookup idKey with
    | none =>
      simp only [hl] at hids
      exact Except.noConfusion hids
    | some v =>
      simp only [hl] at hids
      cases hi : pyInt v with
      | error e =>
        simp only [hi] at hids
        exact Except.noConfusion hids
      | ok i =>
        simp only [hi] at hids
        cases hrest : idsOf idKey sls' with
        | error e =>
          simp only [hrest] at hids
          exact Except.noConfusion hids
        | ok is =>
          simp only [hrest] at hids
          injection hids with h
          subst h
          have hoki : exOk (child i).1 = true := hok i (List.mem_cons_self i is)
          cases hc : (child i).1 with
          | error e => rw [hc] at hoki; simp [exOk] at hoki
          | ok cs =>
            rw [List.foldl_cons]
            have hstep : buildStep child idKey (.ok e0, log0) sl =
                (.ok (e0 ++ [CEntry.mk i sl.desc cs]), log0 ++ (child i).2) := by
              simp only [buildStep, hl, hi, hc]
            rw [hstep]
            obtain ⟨es, hes⟩ := ih is (e0 ++ [CEntry.mk i sl.desc cs])
              (log0 ++ (child i).2) hrest
              (fun j hj => hok j (List.mem_cons_of_mem i hj))
            exact ⟨es, by rw [hes]; simp⟩

/-- Requests of level `l` in the flattened child logs: one per id
occurrence. -/
theorem count_flatten_crawl (P : Portal) (l : Nat) (x : Int) :
    ∀ ids : List Int,
      ((ids.map (fun i => (crawl P l i).2)).flatten).count (l, x)
        = ids.count x := by
  intro ids
  induction ids with
  | nil => simp
  | cons i t ih =>
    simp only [List.map_cons, List.flatten_cons, List.count_append, ih,
      List.count_cons, crawl_log_count_self]
    by_cases hx : x = i
    · subst hx
      simp [Nat.add_comm]
    · simp [hx, Ne.symm hx]

/-- C2 (amended): deduplication is applied only AFTER the per-anchor
recursion: when the page of `(l+1, pid)` yields surviving anchors whose id
list is `ids` (duplicates included), the child level `l` is fetched once
per OCCURRENCE of each id — duplicate parents are each separately
re-crawled — and only then is the collected entry list deduplicated. -/
theorem c2_duplicates_recrawled (P : Portal) (l : Nat) (pid : Int)
    (anchors : List Anchor) (sublinks : List Sublink) (ids : List Int)
    (hresp : P.resp (l + 1) pid = .page anchors)
    (hsub : getSublinks anchors (levelSpec (l + 1)).path
      (levelSpec (l + 1)).conds = .ok sublinks)
    (hids : idsOf (levelSpec (l + 1)).idKey sublinks = .ok ids)
    (hok : ∀ i ∈ ids, exOk (crawl P l i).1 = true) (x : Int) :
    (crawl P (l + 1) pid).2.count (l, x) = ids.count x := by
  obtain ⟨es, hes⟩ := foldl_buildStep_ok (crawl P l) (levelSpec (l + 1)).idKey
    sublinks ids [] [] hids hok
  have hlog : (crawl P (l + 1) pid).2 =
      (l + 1, pid) :: (ids.map (fun i => (crawl P l i).2)).flatten := by
    show (crawlStep P (crawl P l) (l + 1) pid).2 = _
    unfold crawlStep
    simp only [hresp, hsub, buildEntries]
    rw [hes]
    simp
  rw [hlog, List.count_cons]
  have hhead : ((l + 1, pid) == (l, x)) = false := by
    simp only [beq_eq_false_iff_ne, ne_eq, Prod.mk.injEq, not_and]
    intro h
    exact absurd h (Nat.succ_ne_self l)
  rw [hhead, if_neg (by simp)]
  rw [count_flatten_crawl P l x ids]
  exact Nat.add_zero _

theorem c2_duplicates_recrawled_witness :
    (crawl portalC2 3 0).2.count (2, 7) = ([7, 7] : List Int).count 7 :=
  c2_duplicates_recrawled portalC2 2 0
    [⟨"deploy.pl", [("ProjectId", "7")], "a", none⟩,
     ⟨"deploy.pl", [("ProjectId", "7")], "b", none⟩]
    [⟨"deploy.pl", [("ProjectId", "7")], "a", none, none⟩,
     ⟨"deploy.pl", [("ProjectId", "7")], "b", none, none⟩]
    [7, 7] rfl rfl rfl (by decide) 7

/-! ## Claim C8 -/

theorem eraseIdx_append_len {α : Type u} :
    ∀ (a : List α) (x : α) (b : List α),
      (a ++ x :: b).eraseIdx a.length = a ++ b := by
  intro a
  induction a with
  | nil => intro x b; rfl
  | cons c t ih => intro x b; simp [List.eraseIdx, ih x b]

theorem getElem?_append_len {α : Type u} :
    ∀ (a : List α) (x : α) (b : List α), (a ++ x :: b)[a.length]? = some x := by
  intro a
  induction a with
  | nil => intro x b; simp
  | cons c t ih => intro x b; simpa using ih x b

/-- The back-to-front deletion pass of `_filter_duplicates`, recast
structurally: `rev` is the reversed unprocessed front of the list, `acc`
holds the survivors to its right. -/
def sweep (idOf : α → Int) : List α → List α → List α
  | [], acc => acc
  | x :: rev, acc =>
    if 1 < ((rev.reverse ++ x :: acc).filter
        (fun y => idOf y == idOf x)).length then
      sweep idOf rev acc
    else
      sweep idOf rev (x :: acc)

/-- The index-based loop equals the structural sweep. -/
theorem fdLoop_eq_sweep (idOf : α → Int) :
    ∀ (rev back : List α),
      fdLoop idOf (rev.reverse ++ back) rev.length = sweep idOf rev back := by
  intro rev
  induction rev with
  | nil => intro back; rfl
  | cons x rev' ih =>
    intro back
    have hL : (x :: rev').reverse ++ back = rev'.reverse ++ (x :: back) := by
      rw [List.reverse_cons, List.append_assoc, List.singleton_append]
    rw [List.length_cons]
    show fdLoop idOf ((x :: rev').reverse ++ back) (rev'.length + 1) = _
    rw [hL]
    show fdLoop idOf
      (fdStep idOf (rev'.reverse ++ (x :: back)) rev'.length) rev'.length = _
    have hget : (rev'.reverse ++ (x :: back))[rev'.length]? = some x := by
      have := getElem?_append_len rev'.reverse x back
      rwa [List.length_reverse] at this
    have hstep : fdStep idOf (rev'.reverse ++ (x :: back)) rev'.length =
        if 1 < ((rev'.reverse ++ x :: back).filter
            (fun y => idOf y == idOf x)).length then
          (rev'.reverse ++ (x :: back)).eraseIdx rev'.length
        else rev'.reverse ++ (x :: back) := by
      simp only [fdStep, hget]
    rw [hstep]
    have hsweep : sweep idOf (x :: rev') back =
        if 1 < ((rev'.reverse ++ x :: back).filter
            (fun y => idOf y == idOf x)).length then
          sweep idOf rev' back
        else sweep idOf rev' (x :: back) := rfl
    have herase : (rev'.reverse ++ (x :: back)).eraseIdx rev'.length =
        rev'.reverse ++ back := by
      have := eraseIdx_append_len rev'.reverse x back
      rwa [List.length_reverse] at this
    by_cases hcond :
        1 < ((rev'.reverse ++ x :: back).filter
          (fun y => idOf y == idOf x)).length
    · rw [if_pos hcond, herase, ih back, hsweep, if_pos hcond]
    · rw [if_neg hcond, ih (x :: back), hsweep, if_neg hcond]

/-- Appending an element whose id already occurs does not change the
first-occurrence deduplication. -/
theorem dedupFirst_append_dup (idOf : α → Int) :
    ∀ (n : Nat) (l : List α), l.length ≤ n → ∀ x,
      (∃ y ∈ l, idOf y = idOf x) →
      dedupFirst idOf (l ++ [x]) = dedupFirst idOf l := by
  intro n
  induction n with
  | zero =>
    intro l hl x hx
    cases l with
    | nil => rcases hx with ⟨y, hy, _⟩; cases hy
    | cons a t => simp at hl
  | succ n ih =>
    intro l hl x hx
    cases l with
    | nil => rcases hx with ⟨y, hy, _⟩; cases hy
    | cons a t =>
      rw [List.cons_append]
      simp only [dedupFirst]
      by_cases hax : idOf x = idOf a
      · have hfil : (t ++ [x]).filter (fun y => !(idOf y == idOf a)) =
            t.filter (fun y => !(idOf y == idOf a)) := by
          rw [List.filter_append]
          simp [hax]
        rw [hfil]
      · have hfil : (t ++ [x]).filter (fun y => !(idOf y == idOf a)) =
            t.filter (fun y => !(idOf y == idOf a)) ++ [x] := by
          rw [List.filter_append]
          simp [hax]
        rw [hfil]
        have hlen : (t.filter (fun y => !(idOf y == idOf a))).length ≤ n :=
          Nat.le_trans (List.length_filter_le _ t)
            (Nat.le_of_succ_le_succ hl)
        have hx' : ∃ y ∈ t.filter (fun y => !(idOf y == idOf a)),
            idOf y = idOf x := by
          rcases hx with ⟨y, hy, hyx⟩
          rcases List.mem_cons.mp hy with rfl | hyt
          · exact absurd hyx.symm (by rw [← hyx] at hax; exact fun h => hax rfl)
          · refine ⟨y, List.mem_filter.mpr ⟨hyt, ?_⟩, hyx⟩
            simp only [Bool.not_eq_eq_eq_not, Bool.not_true, beq_eq_false_iff_ne]
            rw [hyx]
            exact hax
        rw [ih (t.filter (fun y => !(idOf y == idOf a))) hlen x hx']

/-- Appending an element with a fresh id appends it to the
first-occurrence deduplication. -/
theorem dedupFirst_append_new (idOf : α → Int) :
    ∀ (n : Nat) (l : List α), l.length ≤ n → ∀ x,
      (∀ y ∈ l, idOf y ≠ idOf x) →
      dedupFirst idOf (l ++ [x]) = dedupFirst idOf l ++ [x] := by
  intro n
  induction n with
  | zero =>
    intro l hl x _
    cases l with
    | nil => simp [dedupFirst]
    | cons a t => simp at hl
  | succ n ih =>
    intro l hl x hx
    cases l with
    | nil => simp [dedupFirst]
    | cons a t =>
      rw [List.cons_append]
      simp only [dedupFirst, List.cons_append, List.cons.injEq, true_and]
      have hax : idOf x ≠ idOf a := fun h =>
        hx a (List.mem_cons_self a t) h.symm
      have hfil : (t ++ [x]).filter (fun y => !(idOf y == idOf a)) =
          t.filter (fun y => !(idOf y == idOf a)) ++ [x] := by
        rw [List.filter_append]
        simp [hax]
      rw [hfil]
      have hlen : (t.filter (fun y => !(idOf y == idOf a))).length ≤ n :=
        Nat.le_trans (List.length_filter_le _ t) (Nat.le_of_succ_le_succ hl)
      exact ih _ hlen x (fun y hy =>
        hx y (List.mem_cons_of_mem a (List.mem_filter.mp hy).1))

/-- The sweep computes first-occurrence deduplication of the unprocessed
front (provided the survivors' ids are disjoint from it). -/
theorem sweep_eq_dedupFirst (idOf : α → Int) :
    ∀ (rev acc : List α),
      (∀ a ∈ acc, ∀ r ∈ rev, idOf a ≠ idOf r) →
      sweep idOf rev acc = dedupFirst idOf rev.reverse ++ acc := by
  intro rev
  induction rev with
  | nil => intro acc _; simp [sweep, dedupFirst]
  | cons x rev' ih =>
    intro acc hdisj
    have haccfil : acc.filter (fun y => idOf y == idOf x) = [] := by
      rw [List.filter_eq_nil_iff]
      intro a ha
      simp only [beq_iff_eq]
      exact hdisj a ha x (List.mem_cons_self x rev')
    have hxfil : (x :: acc).filter (fun y => idOf y == idOf x) =
        x :: acc.filter (fun y => idOf y == idOf x) := by
      simp [List.filter_cons]
    have hsplit : ((rev'.reverse ++ x :: acc).filter
        (fun y => idOf y == idOf x)).length =
        ((rev'.reverse.filter (fun y => idOf y == idOf x)).length) + 1 := by
      rw [List.filter_append, List.length_append, hxfil, haccfil]
      rfl
    unfold sweep
    by_cases hdup : ∃ y ∈ rev', idOf y = idOf x
    · have hpos : 0 < (rev'.reverse.filter
          (fun y => idOf y == idOf x)).length := by
        rcases hdup with ⟨y, hy, hyx⟩
        refine List.length_pos_iff_ne_nil.mpr (List.ne_nil_of_mem
          (List.mem_filter.mpr ⟨List.mem_reverse.mpr hy, ?_⟩))
        exact beq_iff_eq.mpr hyx
      rw [if_pos (by rw [hsplit]; omega)]
      rw [ih acc (fun a ha r hr =>
        hdisj a ha r (List.mem_cons_of_mem x hr))]
      have hdup' : ∃ y ∈ rev'.reverse, idOf y = idOf x := by
        rcases hdup with ⟨y, hy, hyx⟩
        exact ⟨y, List.mem_reverse.mpr hy, hyx⟩
      rw [List.reverse_cons,
        dedupFirst_append_dup idOf rev'.reverse.length rev'.reverse
          (Nat.le_refl _) x hdup']
    · have hzero : rev'.reverse.filter (fun y => idOf y == idOf x) = [] := by
        rw [List.filter_eq_nil_iff]
        intro y hy
        simp only [beq_iff_eq]
        exact fun h => hdup ⟨y, List.mem_reverse.mp hy, h⟩
      rw [if_neg (by rw [hsplit, hzero]; simp)]

      have hdisj' : ∀ a ∈ x :: acc, ∀ r ∈ rev', idOf a ≠ idOf r := by
        intro a ha r hr
        rcases List.mem_cons.mp ha with rfl | ha'
        · exact fun h => hdup ⟨r, hr, h.symm⟩
        · exact hdisj a ha' r (List.mem_cons_of_mem x hr)
      rw [ih (x :: acc) hdisj']
      rw [List.reverse_cons,
        dedupFirst_append_new idOf rev'.reverse.length rev'.reverse
          (Nat.le_refl _) x
          (fun y hy h => hdup ⟨y, List.mem_reverse.mp hy, h⟩)]
      rw [List.append_assoc, List.singleton_append]

/-- `dedupFirst` is a sublist of its input (relative order preserved). -/
theorem dedupFirst_sublist (idOf : α → Int) :
    ∀ (n : Nat) (l : List α), l.length ≤ n →
      (dedupFirst idOf l).Sublist l := by
  intro n
  induction n with
  | zero =>
    intro l hl
    cases l with
    | nil => simp [dedupFirst]
    | cons a t => simp at hl
  | succ n ih =>
    intro l hl
    cases l with
    | nil => simp [dedupFirst]
    | cons a t =>
      simp only [dedupFirst]
      refine List.Sublist.cons₂ a ?_
      exact List.Sublist.trans
        (ih _ (Nat.le_trans (List.length_filter_le _ t)
          (Nat.le_of_succ_le_succ hl)))
        (List.filter_sublist t)

/-- The ids of `dedupFirst`'s output are pairwise distinct. -/
theorem dedupFirst_id_nodup (idOf : α → Int) :
    ∀ (n : Nat) (l : List α), l.length ≤ n →
      ((dedupFirst idOf l).map idOf).Nodup := by
  intro n
  induction n with
  | zero =>
    intro l hl
    cases l with
    | nil => simp [dedupFirst]
    | cons a t => simp at hl
  | succ n ih =>
    intro l hl
    cases l with
    | nil => simp [dedupFirst]
    | cons a t =>
      simp only [dedupFirst, List.map_cons, List.nodup_cons]
      constructor
      · intro hmem
        rcases List.mem_map.mp hmem with ⟨y, hy, hya⟩
        have hsub : y ∈ t.filter (fun z => !(idOf z == idOf a)) :=
          (dedupFirst_sublist idOf _ _ (Nat.le_refl _)).mem hy
        have := (List.mem_filter.mp hsub).2
        rw [hya] at this
        simp at this
      · exact ih _ (Nat.le_trans (List.length_filter_le _ t)
          (Nat.le_of_succ_le_succ hl))

/-- C8: `EbCommand._filter_duplicates` performs exactly the spec's
first-occurrence deduplication: its result equals `dedupFirst` (keep the
first entry — with its description — of every distinct id, discard later
duplicates), is a sublist of the input (the kept entries' relative order is
preserved), and contains no two entries with the same id. -/
theorem c8_filter_duplicates {α : Type} (idOf : α → Int) (l : List α) :
    filterDuplicates idOf l = dedupFirst idOf l ∧
    (filterDuplicates idOf l).Sublist l ∧
    ((filterDuplicates idOf l).map idOf).Nodup := by
  have heq : filterDuplicates idOf l = dedupFirst idOf l := by
    unfold filterDuplicates
    have hbridge := fdLoop_eq_sweep idOf l.reverse []
    rw [List.reverse_reverse, List.append_nil, List.length_reverse]
      at hbridge
    rw [hbridge]
    have hsweep := sweep_eq_dedupFirst idOf l.reverse []
      (fun a ha => absurd ha (List.not_mem_nil a))
    rw [List.reverse_reverse, List.append_nil] at hsweep
    exact hsweep
  refine ⟨heq, ?_, ?_⟩
  · rw [heq]
    exact dedupFirst_sublist idOf l.length l (Nat.le_refl _)
  · rw [heq]
    exact dedupFirst_id_nodup idOf l.length l (Nat.le_refl _)

/-! ## Claim C9 -/

/-- The fraction digits of a decimal number (empty when it has none). -/
def fracOf (n : List Char) : List Char :=
  match n.dropWhile isDigitChar with
  | '.' :: t => t
  | _ => []

theorem decNumberVal_eq (n : List Char) :
    decNumberVal n = decValue (n.takeWhile isDigitChar) (fracOf n) := by
  unfold decNumberVal fracOf
  split <;> rfl

/-- `takeWhile`/`dropWhile` of a concatenation whose front satisfies the
predicate and whose back starts with a failing character. -/
theorem tw_dw_append (p : Char → Bool) :
    ∀ (a b : List Char), (∀ c ∈ a, p c = true) →
      (∀ c, b.head? = some c → p c = false) →
      (a ++ b).takeWhile p = a ∧ (a ++ b).dropWhile p = b := by
  intro a
  induction a with
  | nil =>
    intro b _ hb
    cases b with
    | nil => exact ⟨rfl, rfl⟩
    | cons c t =>
      have hc := hb c rfl
      constructor
      · simp [List.takeWhile_cons, hc]
      · simp [List.dropWhile_cons, hc]
  | cons x a' ih =>
    intro b ha hb
    have hx : p x = true := ha x (List.mem_cons_self x a')
    have := ih b (fun c hc => ha c (List.mem_cons_of_mem x hc)) hb
    constructor
    · simp [List.takeWhile_cons, hx, this.1]
    · simp [List.dropWhile_cons, hx, this.2]

/-- `takeWhile`/`dropWhile` of a list all of whose characters satisfy the
predicate. -/
theorem tw_dw_all (p : Char → Bool) (a : List Char)
    (ha : ∀ c ∈ a, p c = true) :
    a.takeWhile p = a ∧ a.dropWhile p = [] := by
  have := tw_dw_append p a [] ha (fun c hc => by cases hc)
  simpa using this

/-- Every letter accepted by the unit table is one of the ten unit
letters. -/
theorem firstCharUnit_cases (c : Char)
    (h : (firstCharUnit c).isSome = true) :
    c = 'B' ∨ c = 'b' ∨ c = 'K' ∨ c = 'k' ∨ c = 'M' ∨ c = 'm' ∨
    c = 'G' ∨ c = 'g' ∨ c = 'T' ∨ c = 't' := by
  unfold firstCharUnit at h
  by_cases h1 : c = 'B' ∨ c = 'b'
  · tauto
  by_cases h2 : c = 'K' ∨ c = 'k'
  · tauto
  by_cases h3 : c = 'M' ∨ c = 'm'
  · tauto
  by_cases h4 : c = 'G' ∨ c = 'g'
  · tauto
  by_cases h5 : c = 'T' ∨ c = 't'
  · tauto
  exfalso
  rw [if_neg (by simpa using h1), if_neg (by simpa using h2),
    if_neg (by simpa using h3), if_neg (by simpa using h4),
    if_neg (by simpa using h5)] at h
  simp at h

/-- A unit letter is neither a digit nor the decimal point. -/
theorem unit_not_digit (c : Char) (h : (firstCharUnit c).isSome = true) :
    isDigitChar c = false ∧ c ≠ '.' := by
  rcases firstCharUnit_cases c h with h | h | h | h | h | h | h | h | h | h <;>
    subst h <;> exact ⟨by decide, by decide⟩

/-- Unfolding a true `decNumber`. -/
theorem decNumber_elim (n : List Char) (h : decNumber n = true) :
    n.takeWhile isDigitChar ≠ [] ∧
    (n.dropWhile isDigitChar = [] ∨
      (∃ t, n.dropWhile isDigitChar = '.' :: t ∧ t ≠ [] ∧
        ∀ c ∈ t, isDigitChar c = true)) := by
  unfold decNumber at h
  rw [Bool.and_eq_true] at h
  obtain ⟨h1, h2⟩ := h
  refine ⟨by simpa using h1, ?_⟩
  cases hd : n.dropWhile isDigitChar with
  | nil => exact Or.inl rfl
  | cons a t =>
    rw [hd] at h2
    by_cases ha : a = '.'
    · subst ha
      replace h2 : (!t.isEmpty && t.all isDigitChar) = true := h2
      rw [Bool.and_eq_true] at h2
      exact Or.inr ⟨t, rfl, by simpa using h2.1,
        fun c hc => by have := List.all_eq_true.mp h2.2 c hc; simpa using this⟩
    · exfalso
      revert h2
      split
      · rename_i heq
        cases heq
      · rename_i t' heq
        injection heq with heq1 _
        exact absurd heq1 ha
      · intro h2
        exact Bool.false_ne_true h2

/-- Every character of a decimal number is a digit or the point. -/
theorem decNumber_chars (n : List Char) (h : decNumber n = true) :
    ∀ c ∈ n, isDigitChar c = true ∨ c = '.' := by
  obtain ⟨-, h2⟩ := decNumber_elim n h
  intro c hc
  rw [← List.takeWhile_append_dropWhile (p := isDigitChar) (l := n)] at hc
  rcases List.mem_append.mp hc with hc | hc
  · exact Or.inl (List.mem_takeWhile_imp hc)
  · rcases h2 with h2 | ⟨t, h2, -, ht⟩
    · rw [h2] at hc; cases hc
    · rw [h2] at hc
      rcases List.mem_cons.mp hc with rfl | hc
      · exact Or.inr rfl
      · exact Or.inl (ht c hc)

theorem mem_splitsOf (a b cs : List Char) (h : a ++ b = cs) :
    (a, b) ∈ splitsOf cs := by
  unfold splitsOf
  refine List.mem_map.mpr ⟨a.length, ?_, ?_⟩
  · refine List.mem_range.mpr ?_
    subst h
    simp only [List.length_append]
    omega
  · subst h
    rw [List.take_left, List.drop_left]

theorem splitsOf_eq (p : List Char × List Char) (cs : List Char)
    (h : p ∈ splitsOf cs) : p.1 ++ p.2 = cs := by
  unfold splitsOf at h
  rcases List.mem_map.mp h with ⟨k, -, hk⟩
  rw [← hk]
  exact List.take_append_drop k cs

/-- `findSome?` at a list with a unique hit. -/
theorem findSome?_unique {α β : Type} (f : α → Option β) (p : α) (v : β)
    (hv : f p = some v) :
    ∀ l : List α, p ∈ l → (∀ q ∈ l, ∀ w, f q = some w → q = p) →
      l.findSome? f = some v := by
  intro l
  induction l with
  | nil => intro h; cases h
  | cons a l' ih =>
    intro hp huniq
    rw [List.findSome?_cons]
    cases hfa : f a with
    | some w =>
      have : a = p := huniq a (List.mem_cons_self a l') w hfa
      subst this
      rw [hfa] at hv
      exact hv
    | none =>
      rcases List.mem_cons.mp hp with rfl | hp'
      · rw [hfa] at hv; cases hv
      · exact ih hp' (fun q hq => huniq q (List.mem_cons_of_mem a hq))

theorem tryFracLens_sound (ip f tl : List Char) :
    ∀ (j : Nat) (res), tryFracLens ip f tl j = some res →
      ∃ j', 1 ≤ j' ∧ j' ≤ j ∧
        res = (ip, f.take j', f.drop j' ++ tl) ∧
        wordTail (f.drop j' ++ tl) = true := by
  intro j
  induction j with
  | zero => intro res h; cases h
  | succ j ih =>
    intro res h
    unfold tryFracLens at h
    by_cases hw : wordTail (f.drop (j + 1) ++ tl) = true
    · rw [if_pos hw] at h
      injection h with h
      exact ⟨j + 1, Nat.succ_le_succ (Nat.zero_le j), Nat.le_refl _,
        h.symm, hw⟩
    · rw [if_neg hw] at h
      obtain ⟨j', h1, h2, h3, h4⟩ := ih res h
      exact ⟨j', h1, Nat.le_succ_of_le h2, h3, h4⟩

theorem tryNum_sound (d rest : List Char) :
    ∀ (k : Nat) (ip fp u : List Char), k ≤ d.length →
      tryNum d rest k = some (ip, fp, u) →
      ∃ k', 1 ≤ k' ∧ k' ≤ k ∧ ip = d.take k' ∧
        ((fp = [] ∧ u = d.drop k' ++ rest ∧ wordTail u = true) ∨
         (∃ t j', d.drop k' ++ rest = '.' :: t ∧ 1 ≤ j' ∧
           j' ≤ (t.takeWhile isDigitChar).length ∧
           fp = (t.takeWhile isDigitChar).take j' ∧
           u = (t.takeWhile isDigitChar).drop j' ++ t.dropWhile isDigitChar ∧
           wordTail u = true)) := by
  intro k
  induction k with
  | zero => intro ip fp u _ h; cases h
  | succ k ih =>
    intro ip fp u hk h
    simp only [tryNum] at h
    split at h
    · rename_i t heq
      injection h with h
      subst h
      split at heq
      · rename_i t0 hdr
        split at heq
        · rename_i res' hfrac
          injection heq with heq
          obtain ⟨j', h1, h2, h3, h4⟩ := tryFracLens_sound _ _ _ _ res' hfrac
          have hcomb := heq.symm.trans h3
          have hip : ip = d.take (k + 1) := congrArg Prod.fst hcomb
          have hfp : fp = (t0.takeWhile isDigitChar).take j' :=
            congrArg (fun q => q.2.1) hcomb
          have hu : u = (t0.takeWhile isDigitChar).drop j' ++
              t0.dropWhile isDigitChar :=
            congrArg (fun q => q.2.2) hcomb
          refine ⟨k + 1, Nat.succ_le_succ (Nat.zero_le k), Nat.le_refl _, hip,
            Or.inr ⟨t0, j', hdr, h1, h2, hfp, hu, ?_⟩⟩
          rw [hu]
          exact h4
        · by_cases hw : wordTail (d.drop (k + 1) ++ rest) = true
          · rw [if_pos hw] at heq
            injection heq with heq
            have hip : ip = d.take (k + 1) := (congrArg Prod.fst heq).symm
            have hfp : fp = [] := (congrArg (fun q => q.2.1) heq).symm
            have hu : u = d.drop (k + 1) ++ rest :=
              (congrArg (fun q => q.2.2) heq).symm
            exact ⟨k + 1, Nat.succ_le_succ (Nat.zero_le k), Nat.le_refl _, hip,
              Or.inl ⟨hfp, hu, by rw [hu]; exact hw⟩⟩
          · rw [if_neg hw] at heq
            exact Option.noConfusion heq
      · by_cases hw : wordTail (d.drop (k + 1) ++ rest) = true
        · rw [if_pos hw] at heq
          injection heq with heq
          have hip : ip = d.take (k + 1) := (congrArg Prod.fst heq).symm
          have hfp : fp = [] := (congrArg (fun q => q.2.1) heq).symm
          have hu : u = d.drop (k + 1) ++ rest :=
            (congrArg (fun q => q.2.2) heq).symm
          exact ⟨k + 1, Nat.succ_le_succ (Nat.zero_le k), Nat.le_refl _, hip,
            Or.inl ⟨hfp, hu, by rw [hu]; exact hw⟩⟩
        · rw [if_neg hw] at heq
          exact Option.noConfusion heq
    · obtain ⟨k', g1, g2, g3, g4⟩ := ih ip fp u (Nat.le_of_succ_le hk) h
      exact ⟨k', g1, Nat.le_succ_of_le g2, g3, g4⟩

theorem decNumber_build_nofrac (n : List Char) (hne : n ≠ [])
    (hall : ∀ c ∈ n, isDigitChar c = true) : decNumber n = true := by
  obtain ⟨htw, hdw⟩ := tw_dw_all isDigitChar n hall
  unfold decNumber
  rw [htw, hdw]
  simp [hne]

theorem decNumberVal_build_nofrac (n : List Char)
    (hall : ∀ c ∈ n, isDigitChar c = true) :
    decNumberVal n = decValue n [] := by
  obtain ⟨htw, hdw⟩ := tw_dw_all isDigitChar n hall
  rw [decNumberVal_eq]
  unfold fracOf
  rw [htw, hdw]

theorem head_dot (c : Char) (b : List Char)
    (hc : (('.' :: b).head? = some c)) : isDigitChar c = false := by
  injection hc with hc
  subst hc
  decide

theorem decNumber_build_frac (a b : List Char) (hane : a ≠ [])
    (haall : ∀ c ∈ a, isDigitChar c = true) (hbne : b ≠ [])
    (hball : ∀ c ∈ b, isDigitChar c = true) :
    decNumber (a ++ '.' :: b) = true := by
  obtain ⟨htw, hdw⟩ := tw_dw_append isDigitChar a ('.' :: b) haall
    (fun c hc => head_dot c b hc)
  unfold decNumber
  rw [htw, hdw]
  have h1 : a.isEmpty = false := by
    cases a with
    | nil => exact absurd rfl hane
    | cons x t => rfl
  have h2 : b.isEmpty = false := by
    cases b with
    | nil => exact absurd rfl hbne
    | cons x t => rfl
  show (!a.isEmpty && (!b.isEmpty && b.all isDigitChar)) = true
  rw [h1, h2]
  simp only [Bool.not_false, Bool.true_and, List.all_eq_true]
  exact hball

theorem decNumberVal_build_frac (a b : List Char)
    (haall : ∀ c ∈ a, isDigitChar c = true) :
    decNumberVal (a ++ '.' :: b) = decValue a b := by
  obtain ⟨htw, hdw⟩ := tw_dw_append isDigitChar a ('.' :: b) haall
    (fun c hc => head_dot c b hc)
  rw [decNumberVal_eq]
  unfold fracOf
  rw [htw, hdw]
  rfl

theorem sizeMatch_sound (cs ip fp u : List Char)
    (h : sizeMatch cs = some (ip, fp, u)) :
    ∃ n, n ++ u = cs ∧ decNumber n = true ∧ wordTail u = true ∧
      decNumberVal n = decValue ip fp := by
  unfold sizeMatch at h
  obtain ⟨k', h1, h2, hip, hrest⟩ :=
    tryNum_sound (cs.takeWhile isDigitChar) (cs.dropWhile isDigitChar)
      (cs.takeWhile isDigitChar).length ip fp u (Nat.le_refl _) h
  have hdall : ∀ c ∈ cs.takeWhile isDigitChar, isDigitChar c = true :=
    fun c hc => List.mem_takeWhile_imp hc
  have hipall : ∀ c ∈ (cs.takeWhile isDigitChar).take k',
      isDigitChar c = true :=
    fun c hc => hdall c (List.mem_of_mem_take hc)
  have hiplen : ((cs.takeWhile isDigitChar).take k').length = k' := by
    rw [List.length_take]
    omega
  have hipne : (cs.takeWhile isDigitChar).take k' ≠ [] := by
    intro hnil
    rw [hnil] at hiplen
    simp at hiplen
    omega
  rcases hrest with ⟨hfp, hu, hw⟩ | ⟨t, j', hdr, hj1, hj2, hfp, hu, hw⟩
  · refine ⟨(cs.takeWhile isDigitChar).take k', ?_,
      decNumber_build_nofrac _ hipne hipall, hw, ?_⟩
    · rw [hu, ← List.append_assoc, List.take_append_drop]
      exact List.takeWhile_append_dropWhile isDigitChar cs
    · rw [decNumberVal_build_nofrac _ hipall, hip, hfp]
  · have hfall : ∀ c ∈ t.takeWhile isDigitChar, isDigitChar c = true :=
      fun c hc => List.mem_takeWhile_imp hc
    have hfplen : ((t.takeWhile isDigitChar).take j').length = j' := by
      rw [List.length_take]
      omega
    have hfpne : (t.takeWhile isDigitChar).take j' ≠ [] := by
      intro hnil
      rw [hnil] at hfplen
      simp at hfplen
      omega
    have hfpall : ∀ c ∈ (t.takeWhile isDigitChar).take j',
        isDigitChar c = true :=
      fun c hc => hfall c (List.mem_of_mem_take hc)
    refine ⟨(cs.takeWhile isDigitChar).take k' ++
        '.' :: (t.takeWhile isDigitChar).take j', ?_,
      decNumber_build_frac _ _ hipne hipall hfpne hfpall, hw, ?_⟩
    · rw [hu]
      have ht : (t.takeWhile isDigitChar).take j' ++
          ((t.takeWhile isDigitChar).drop j' ++ t.dropWhile isDigitChar) = t := by
        rw [← List.append_assoc, List.take_append_drop]
        exact List.takeWhile_append_dropWhile isDigitChar t
      calc ((cs.takeWhile isDigitChar).take k' ++
            '.' :: (t.takeWhile isDigitChar).take j') ++
            ((t.takeWhile isDigitChar).drop j' ++ t.dropWhile isDigitChar)
          = (cs.takeWhile isDigitChar).take k' ++
            '.' :: ((t.takeWhile isDigitChar).take j' ++
              ((t.takeWhile isDigitChar).drop j' ++ t.dropWhile isDigitChar)) := by
            simp [List.append_assoc]
        _ = (cs.takeWhile isDigitChar).take k' ++ '.' :: t := by rw [ht]
        _ = (cs.takeWhile isDigitChar).take k' ++
            ((cs.takeWhile isDigitChar).drop k' ++ cs.dropWhile isDigitChar) := by
            rw [hdr]
        _ = cs := by
            rw [← List.append_assoc, List.take_append_drop]
            exact List.takeWhile_append_dropWhile isDigitChar cs
    · rw [decNumberVal_build_frac _ _ hipall, hip, hfp]

/-- Greedy completeness: at a decomposition into a decimal number followed
by a unit token starting with a non-digit, non-dot character, the regex
engine's greedy search finds exactly that decomposition. -/
theorem sizeMatch_greedy (cs n u : List Char) (c : Char) (u' : List Char)
    (hcs : n ++ u = cs) (hn : decNumber n = true)
    (hu : wordTail u = true) (huc : u = c :: u')
    (hcd : isDigitChar c = false) (hc2 : c ≠ '.') :
    sizeMatch cs = some (n.takeWhile isDigitChar, fracOf n, u) := by
  subst huc
  obtain ⟨hip_ne, hshape⟩ := decNumber_elim n hn
  have hn_eq : n.takeWhile isDigitChar ++ n.dropWhile isDigitChar = n :=
    List.takeWhile_append_dropWhile isDigitChar n
  have hipall : ∀ x ∈ n.takeWhile isDigitChar, isDigitChar x = true :=
    fun x hx => List.mem_takeWhile_imp hx
  rcases hshape with hdw | ⟨t, hdw, htne, htall⟩
  · -- no fraction: n is all digits
    have hnn : n.takeWhile isDigitChar = n := by
      have := hn_eq
      rw [hdw, List.append_nil] at this
      exact this
    have hnall : ∀ x ∈ n, isDigitChar x = true := by
      intro x hx
      rw [← hnn] at hx
      exact hipall x hx
    have hne : n ≠ [] := fun hnil => hip_ne (by rw [hnil]; rfl)
    obtain ⟨htw2, hdw2⟩ := tw_dw_append isDigitChar n (c :: u') hnall
      (fun x hx => by injection hx with hx; subst hx; exact hcd)
    have hfrac : fracOf n = [] := by unfold fracOf; rw [hdw]
    unfold sizeMatch
    rw [← hcs, htw2, hdw2, hnn, hfrac]
    show tryNum n (c :: u') n.length = some (n, [], c :: u')
    have hlen : n.length = (n.length - 1) + 1 := by
      cases n with
      | nil => exact absurd rfl hne
      | cons a t' => simp
    rw [hlen]
    simp only [tryNum, ← hlen, List.take_length, List.drop_length,
      List.nil_append]
    split
    · rename_i res heq
      split at heq
      · rename_i t0 hct
        injection hct with hc0
        exact absurd hc0 hc2
      · rw [if_pos hu] at heq
        injection heq with heq
        rw [← heq]
    · rename_i heq
      split at heq
      · rename_i t0 hct
        injection hct with hc0
        exact absurd hc0 hc2
      · rw [if_pos hu] at heq
        exact Option.noConfusion heq
  · -- fraction: n = ip ++ '.' :: t
    have hnsplit : n.takeWhile isDigitChar ++ '.' :: t = n := by
      rw [← hdw]
      exact hn_eq
    have hcs2 : n.takeWhile isDigitChar ++ '.' :: (t ++ c :: u') = cs := by
      have hassoc : n.takeWhile isDigitChar ++ '.' :: (t ++ c :: u') =
          (n.takeWhile isDigitChar ++ '.' :: t) ++ (c :: u') := by simp
      rw [hassoc, hnsplit, hcs]
    obtain ⟨htw2, hdw2⟩ := tw_dw_append isDigitChar (n.takeWhile isDigitChar)
      ('.' :: (t ++ c :: u')) hipall
      (fun x hx => head_dot x _ hx)
    obtain ⟨htw3, hdw3⟩ := tw_dw_append isDigitChar t (c :: u') htall
      (fun x hx => by injection hx with hx; subst hx; exact hcd)
    have hfrac : fracOf n = t := by unfold fracOf; rw [hdw]; rfl
    unfold sizeMatch
    rw [← hcs2, htw2, hdw2, hfrac]
    show tryNum (n.takeWhile isDigitChar) ('.' :: (t ++ c :: u'))
      (n.takeWhile isDigitChar).length = some (n.takeWhile isDigitChar, t, c :: u')
    have hlen : (n.takeWhile isDigitChar).length =
        ((n.takeWhile isDigitChar).length - 1) + 1 := by
      cases hq : n.takeWhile isDigitChar with
      | nil => exact absurd hq hip_ne
      | cons a t' => simp
    rw [hlen]
    simp only [tryNum, ← hlen, List.take_length, List.drop_length,
      List.nil_append, htw3, hdw3]
    -- inner fraction search
    have hlent : t.length = (t.length - 1) + 1 := by
      cases t with
      | nil => exact absurd rfl htne
      | cons a t' => simp
    have hfracsearch :
        tryFracLens (n.takeWhile isDigitChar) t (c :: u') t.length =
          some (n.takeWhile isDigitChar, t, c :: u') := by
      rw [hlent]
      simp only [tryFracLens, ← hlent, List.take_length, List.drop_length,
        List.nil_append]
      rw [if_pos hu]
    rw [hfracsearch]

/-- If a decomposition point falls strictly inside another decomposition's
number part, the first decomposition's unit letter would be a character of
the second's decimal number — impossible. -/
theorem letter_split_len_le (cs n₁ u₁ n₂ u₂ : List Char) (c₁ : Char)
    (r₁ : List Char) (h1 : n₁ ++ u₁ = cs) (h2 : n₂ ++ u₂ = cs)
    (hd2 : decNumber n₂ = true) (hu1 : u₁ = c₁ :: r₁)
    (hl1 : (firstCharUnit c₁).isSome = true)
    (hle : n₁.length ≤ n₂.length) : n₂.length ≤ n₁.length := by
  by_contra hlt
  push_neg at hlt
  have happ : n₁ ++ u₁ = n₂ ++ u₂ := by rw [h1, h2]
  have htake : (n₁ ++ u₁).take n₂.length =
      n₁ ++ u₁.take (n₂.length - n₁.length) := by
    rw [List.take_append_eq_append_take, List.take_of_length_le hle]
  have htake2 : (n₂ ++ u₂).take n₂.length = n₂ := by
    rw [List.take_left]
  have hn2 : n₂ = n₁ ++ u₁.take (n₂.length - n₁.length) :=
    htake2.symm.trans ((congrArg (List.take n₂.length) happ.symm).trans htake)
  have hc1mem : c₁ ∈ n₂ := by
    rw [hn2, hu1]
    refine List.mem_append.mpr (Or.inr ?_)
    obtain ⟨m, hm⟩ : ∃ m, n₂.length - n₁.length = m + 1 :=
      ⟨n₂.length - n₁.length - 1, by omega⟩
    rw [hm, List.take_succ_cons]
    exact List.mem_cons_self c₁ _
  have hnd := unit_not_digit c₁ hl1
  rcases decNumber_chars n₂ hd2 c₁ hc1mem with hdig | hdot
  · rw [hnd.1] at hdig
    exact Bool.false_ne_true hdig
  · exact hnd.2 hdot

/-- A string has at most one decomposition into a decimal number followed
by a unit token whose first character is a unit letter. -/
theorem letter_split_unique (cs n₁ u₁ n₂ u₂ : List Char) (c₁ c₂ : Char)
    (r₁ r₂ : List Char) (h1 : n₁ ++ u₁ = cs) (h2 : n₂ ++ u₂ = cs)
    (hd1 : decNumber n₁ = true) (hd2 : decNumber n₂ = true)
    (hu1 : u₁ = c₁ :: r₁) (hu2 : u₂ = c₂ :: r₂)
    (hl1 : (firstCharUnit c₁).isSome = true)
    (hl2 : (firstCharUnit c₂).isSome = true) :
    n₁ = n₂ ∧ u₁ = u₂ := by
  have hlen : n₁.length = n₂.length := by
    rcases Nat.le_total n₁.length n₂.length with h | h
    · exact Nat.le_antisymm h
        (letter_split_len_le cs n₁ u₁ n₂ u₂ c₁ r₁ h1 h2 hd2 hu1 hl1 h)
    · exact Nat.le_antisymm
        (letter_split_len_le cs n₂ u₂ n₁ u₁ c₂ r₂ h2 h1 hd1 hu2 hl2 h) h
  exact List.append_inj (h1.trans h2.symm) hlen

/-- Inversion of a successful `claimSplitParse`. -/
theorem claimSplitParse_some (p : List Char × List Char) (w : Size)
    (h : claimSplitParse p = some w) :
    ∃ c r, p.2 = c :: r ∧ decNumber p.1 = true ∧ wordTail p.2 = true ∧
      ∃ un, firstCharUnit c = some un ∧ w = ⟨decNumberVal p.1, un⟩ := by
  unfold claimSplitParse at h
  split at h
  · exact Option.noConfusion h
  · rename_i c r heq
    by_cases hg : (decNumber p.1 && (c :: r).all isWordChar) = true
    · rw [if_pos hg] at h
      rw [Bool.and_eq_true] at hg
      cases hfc : firstCharUnit c with
      | none =>
        rw [hfc] at h
        exact Option.noConfusion h
      | some un =>
        rw [hfc] at h
        replace h : some (⟨decNumberVal p.1, un⟩ : Size) = some w := h
        injection h with h
        refine ⟨c, r, heq, hg.1, ?_, un, hfc, h.symm⟩
        rw [heq]
        unfold wordTail
        rw [hg.2]
        rfl
    · rw [if_neg hg] at h
      exact Option.noConfusion h

/-- Evaluation of `claimSplitParse` at a letter-headed decomposition. -/
theorem claimSplitParse_eval (n : List Char) (c : Char) (r : List Char)
    (un : SizeUnit) (hd : decNumber n = true)
    (hw : wordTail (c :: r) = true) (hfc : firstCharUnit c = some un) :
    claimSplitParse (n, c :: r) = some ⟨decNumberVal n, un⟩ := by
  have hall : (c :: r).all isWordChar = true := by
    unfold wordTail at hw
    rw [Bool.and_eq_true] at hw
    exact hw.2
  show (if decNumber n && (c :: r).all isWordChar then
      match firstCharUnit c with
      | some u2 => some (Size.mk (decNumberVal n) u2)
      | none => none
    else none) = some (Size.mk (decNumberVal n) un)
  rw [hd, hall, hfc]
  rfl

/-- C9: `Size.parse` agrees with the claim on every input string.  It
returns a `Size` exactly when the whitespace-free text decomposes into a
decimal number (with `.` as the only decimal point) immediately followed by
a word-character unit token whose first letter is one of B/K/M/G/T
case-insensitively; the value is then the exact numeric prefix and the unit
is determined by that letter, and it returns `none` for every other
string. -/
theorem c9_size_parse (s : String) : sizeParse s = claimSizeParse s := by
  by_cases hex : ∃ p ∈ splitsOf (removeWs s), ∃ c r, p.2 = c :: r ∧
      decNumber p.1 = true ∧ wordTail p.2 = true ∧
      (firstCharUnit c).isSome = true
  · obtain ⟨⟨n, u⟩, hmem, c, r, hu, hd, hw, hsome⟩ := hex
    replace hu : u = c :: r := hu
    subst hu
    replace hd : decNumber n = true := hd
    replace hw : wordTail (c :: r) = true := hw
    obtain ⟨un, hfc⟩ := Option.isSome_iff_exists.mp hsome
    have hcs : n ++ c :: r = removeWs s := splitsOf_eq (n, c :: r) _ hmem
    have hnd := unit_not_digit c hsome
    have hgreedy := sizeMatch_greedy (removeWs s) n (c :: r) c r hcs hd hw
      rfl hnd.1 hnd.2
    have hsp : sizeParse s = some ⟨decNumberVal n, un⟩ := by
      simp only [sizeParse, hgreedy, hfc]
      rw [decNumberVal_eq]
    have hcp : claimSizeParse s = some ⟨decNumberVal n, un⟩ := by
      unfold claimSizeParse
      refine findSome?_unique claimSplitParse (n, c :: r) _
        (claimSplitParse_eval n c r un hd hw hfc) _ hmem ?_
      intro q hq w hqw
      obtain ⟨c₂, r₂, hq2, hd₂, hw₂, un₂, hfc₂, -⟩ :=
        claimSplitParse_some q w hqw
      obtain ⟨n₂, u₂⟩ := q
      replace hq2 : u₂ = c₂ :: r₂ := hq2
      replace hd₂ : decNumber n₂ = true := hd₂
      have hcs₂ : n₂ ++ u₂ = removeWs s := splitsOf_eq (n₂, u₂) _ hq
      have huniq := letter_split_unique (removeWs s) n₂ u₂ n (c :: r) c₂ c
        r₂ r hcs₂ hcs hd₂ hd hq2 rfl (by rw [hfc₂]; rfl) hsome
      rw [huniq.1, huniq.2]
    rw [hsp, hcp]
  · have hcp : claimSizeParse s = none := by
      unfold claimSizeParse
      rw [List.findSome?_eq_none_iff]
      intro p hp
      cases hfp : claimSplitParse p with
      | none => rfl
      | some w =>
        exfalso
        obtain ⟨c₂, r₂, hq2, hd₂, hw₂, un₂, hfc₂, -⟩ :=
          claimSplitParse_some p w hfp
        exact hex ⟨p, hp, c₂, r₂, hq2, hd₂, hw₂, by rw [hfc₂]; rfl⟩
    have hsp : sizeParse s = none := by
      cases hsm : sizeMatch (removeWs s) with
      | none => simp only [sizeParse, hsm]
      | some trip =>
        obtain ⟨ip, fp, u⟩ := trip
        cases u with
        | nil => simp only [sizeParse, hsm]
        | cons c r =>
          cases hfc : firstCharUnit c with
          | none => simp only [sizeParse, hsm, hfc]
          | some un =>
            exfalso
            obtain ⟨n, hcs, hd, hw, -⟩ :=
              sizeMatch_sound (removeWs s) ip fp (c :: r) hsm
            exact hex ⟨(n, c :: r), mem_splitsOf n (c :: r) _ hcs, c, r,
              rfl, hd, hw, by rw [hfc]; rfl⟩
    rw [hsp, hcp]

end Ebc
